import Mathlib

/-!
Verification of the patch codec and workspace reconciliation engine of the
jammies repository (`src/project_patcher/workspace/patcher.py`,
`src/project_patcher/workspace/project.py`, `src/project_patcher/metadata/base.py`).

Text bodies (Python `str`) are modelled as `List Char`; file trees as
association lists from path strings to contents.  The functions
`apply_patch`, `create_patch`, `setup_clean`, `apply_patches`,
`setup_working`, `output_working` and `ProjectMetadata.setup` are direct
translations of the Python source.  `difflib.unified_diff` is Python
standard library code that is not part of the repository, so it is
modelled from the specification (see `unified_diff` below).
-/

set_option maxHeartbeats 1000000

namespace Jammies

/-! ## Lines

Python `str.splitlines(keepends=True)` keeps each line's terminator.  We
model the newline terminator `'\n'`; each produced line is nonempty, has
no interior newline, and only the final line may lack a terminator. -/

/-- Model of Python `str.splitlines(keepends=True)` with `'\n'` as the line
terminator: splits a character list into lines, each keeping its final
newline; only the last line may lack one. -/
def splitlines : List Char → List (List Char)
  | [] => []
  | c :: cs =>
    if c = '\n' then ['\n'] :: splitlines cs
    else
      match splitlines cs with
      | [] => [[c]]
      | l :: ls => (c :: l) :: ls

theorem splitlines_cons_nl (cs : List Char) :
    splitlines ('\n' :: cs) = ['\n'] :: splitlines cs := by
  simp [splitlines]

theorem splitlines_cons_of_nil (c : Char) (cs : List Char) (h : c ≠ '\n')
    (hs : splitlines cs = []) : splitlines (c :: cs) = [[c]] := by
  simp [splitlines, if_neg h, hs]

theorem splitlines_cons_of_cons (c : Char) (cs l : List Char)
    (ls : List (List Char)) (h : c ≠ '\n') (hs : splitlines cs = l :: ls) :
    splitlines (c :: cs) = (c :: l) :: ls := by
  simp [splitlines, if_neg h, hs]

theorem join_splitlines (s : List Char) : (splitlines s).flatten = s := by
  induction s with
  | nil => rfl
  | cons c cs ih =>
    by_cases h : c = '\n'
    · subst h
      rw [splitlines_cons_nl]
      simp [ih]
    · cases hs : splitlines cs with
      | nil =>
        rw [hs] at ih
        simp at ih
        rw [splitlines_cons_of_nil c cs h hs]
        simp [ih]
      | cons l ls =>
        rw [hs] at ih
        rw [splitlines_cons_of_cons c cs l ls h hs]
        simp only [List.flatten_cons, List.cons_append] at ih ⊢
        rw [ih]

/-- Every line produced by `splitlines` is nonempty and has no newline
before its last character. -/
theorem splitlines_shape (s : List Char) :
    ∀ l ∈ splitlines s, l ≠ [] ∧ ∀ c ∈ l.dropLast, c ≠ '\n' := by
  induction s with
  | nil => simp [splitlines]
  | cons c cs ih =>
    by_cases h : c = '\n'
    · subst h
      rw [splitlines_cons_nl]
      intro l hl
      rcases List.mem_cons.mp hl with hl | hl
      · subst hl; simp
      · exact ih l hl
    · cases hs : splitlines cs with
      | nil =>
        rw [splitlines_cons_of_nil c cs h hs]
        intro l hl
        simp at hl
        subst hl
        simp
      | cons p ps =>
        rw [splitlines_cons_of_cons c cs p ps h hs]
        intro l hl
        rcases List.mem_cons.mp hl with hl | hl
        · subst hl
          have hp := ih p (by rw [hs]; exact List.mem_cons_self _ _)
          refine ⟨by simp, ?_⟩
          rcases hp with ⟨hpne, hpd⟩
          rw [List.dropLast_cons_of_ne_nil hpne]
          intro x hx
          rcases List.mem_cons.mp hx with hx | hx
          · subst hx; exact h
          · exact hpd x hx
        · exact ih l (by rw [hs]; exact List.mem_cons_of_mem _ hl)

/-- A line that ends with a newline and has no interior newline. -/
def NLTerm (l : List Char) : Prop :=
  l ≠ [] ∧ l.getLast? = some '\n' ∧ ∀ c ∈ l.dropLast, c ≠ '\n'

theorem splitlines_append_of_NLTerm (l s : List Char) (h : NLTerm l) :
    splitlines (l ++ s) = l :: splitlines s := by
  induction l with
  | nil => exact absurd rfl h.1
  | cons c cs ih =>
    rcases h with ⟨-, hlast, hint⟩
    cases cs with
    | nil =>
      simp only [List.getLast?_singleton] at hlast
      cases hlast
      simp only [List.singleton_append]
      rw [splitlines_cons_nl]
    | cons d ds =>
      have hc : c ≠ '\n' := by
        apply hint
        rw [List.dropLast_cons_of_ne_nil (by simp)]
        exact List.mem_cons_self _ _
      have hrec : splitlines ((d :: ds) ++ s) = (d :: ds) :: splitlines s := by
        apply ih
        refine ⟨by simp, ?_, ?_⟩
        · rw [← hlast, List.getLast?_cons_cons]
        · intro x hx
          apply hint
          rw [List.dropLast_cons_of_ne_nil (by simp)]
          exact List.mem_cons_of_mem _ hx
      rw [List.cons_append, splitlines_cons_of_cons c _ _ _ hc hrec]

theorem splitlines_flatten_of_NLTerm (ls : List (List Char))
    (h : ∀ l ∈ ls, NLTerm l) : splitlines ls.flatten = ls := by
  induction ls with
  | nil => rfl
  | cons l ls ih =>
    rw [List.flatten_cons, splitlines_append_of_NLTerm l _ (h l (List.mem_cons_self _ _)),
      ih fun x hx => h x (List.mem_cons_of_mem _ hx)]

/-! ## Patch application (`apply_patch`, patcher.py lines 26-53)

Direct translation of the Python source.  The patch text is split into
lines; leading `---`/`+++` header lines are skipped; then hunks are
processed.  The two `raise` statements of the source become `Except.error`
values.  Index accesses `patch[i][0]` in the source are guarded by the
loop conditions and the fact that `splitlines` never produces an empty
line; the translation uses `head?`. -/

/-- Python `str.startswith(pre)` on character lists. -/
def hasPre : List Char → List Char → Bool
  | [], _ => true
  | _ :: _, [] => false
  | p :: ps, c :: cs => p = c && hasPre ps cs

/-- The header-skipping loop of `apply_patch`:
`while i < len(patch) and patch[i].startswith(("---","+++")): i += 1`. -/
def skipHeaders : List (List Char) → List (List Char)
  | [] => []
  | l :: ls =>
    if hasPre "---".toList l || hasPre "+++".toList l then skipHeaders ls
    else l :: ls

/-- ASCII decimal digit test (the `\d` of the hunk-header regex). -/
def isDig (c : Char) : Bool := 48 ≤ c.toNat && c.toNat ≤ 57

/-- Numeric value of a decimal digit character. -/
def digVal (c : Char) : Nat := c.toNat - 48

/-- Maximal decimal-digit run at the front of a character list, together
with the remainder (the greedy `\d+` of the regex). -/
def digitsSpan : List Char → List Char × List Char
  | [] => ([], [])
  | c :: cs =>
    if isDig c then
      let r := digitsSpan cs
      (c :: r.1, r.2)
    else ([], c :: cs)

/-- Python `int` on a digit string. -/
def digitsVal (l : List Char) : Nat := l.foldl (fun a c => a * 10 + digVal c) 0

/-- Strips an exact character-list prelude, returning the remainder. -/
def stripPre : List Char → List Char → Option (List Char)
  | [], l => some l
  | _ :: _, [] => none
  | p :: ps, c :: cs => if p = c then stripPre ps cs else none

/-- One `-(\d+),?(\d+)?` range of the hunk-header regex: the start value,
the raw text of the optional second group, and the remainder. -/
def parseRange (l : List Char) : Option (Nat × Option (List Char) × List Char) :=
  let s1 := digitsSpan l
  if s1.1 = [] then none
  else
    let r2 := if s1.2.head? = some ',' then s1.2.tail else s1.2
    let s2 := digitsSpan r2
    some (digitsVal s1.1, (if s2.1 = [] then none else some s2.1), s2.2)

/-- `re.match` of the hunk-header regex
`^@@ -(\d+),?(\d+)? \+(\d+),?(\d+)? @@$` against one patch line, giving the
four groups (`$` also matches just before a final newline).  Group values
are the parsed starts and the raw text of the optional length groups. -/
def parseHeader (l : List Char) :
    Option (Nat × Option (List Char) × Nat × Option (List Char)) :=
  match stripPre "@@ -".toList l with
  | none => none
  | some r =>
    match parseRange r with
    | none => none
    | some (a, b, r2) =>
      match stripPre " +".toList r2 with
      | none => none
      | some r3 =>
        match parseRange r3 with
        | none => none
        | some (c, d, r4) =>
          match stripPre " @@".toList r4 with
          | none => none
          | some r5 => if r5 = [] ∨ r5 = ['\n'] then some (a, b, c, d) else none

/-- Effect of one hunk-body line on the output and the input cursor:
`if line[0] == sign or line[0] == ' ': patched_file += line[1:]` and
`sl += (line[0] != sign)`, guarded by `len(line) > 0`. -/
def lineStep (sign : Char) (line : List Char) (sl : Nat) :
    List (List Char) × Nat :=
  match line with
  | [] => ([], sl)
  | c :: cs =>
    ((if c = sign ∨ c = ' ' then [cs] else []), if c = sign then sl else sl + 1)

/-- The inner loop of `apply_patch`: processes hunk-body lines until the
next line starting with `'@'` (or the end of the patch), handling the
`\ No newline at end of file` marker by dropping the final character of
the preceding line and skipping the marker line.  Returns the emitted
output lines, the final input cursor, and the unconsumed patch lines. -/
def hunkBody (sign : Char) : List (List Char) → Nat →
    List (List Char) × Nat × List (List Char)
  | [], sl => ([], sl, [])
  | [p], sl =>
    if p.head? = some '@' then ([], sl, [p])
    else
      let r := lineStep sign p sl
      (r.1, r.2, [])
  | p :: q :: rest, sl =>
    if p.head? = some '@' then ([], sl, p :: q :: rest)
    else if q.head? = some '\\' then
      let r := lineStep sign p.dropLast sl
      let t := hunkBody sign rest r.2
      (r.1 ++ t.1, t.2)
    else
      let r := lineStep sign p sl
      let t := hunkBody sign (q :: rest) r.2
      (r.1 ++ t.1, t.2)

theorem hunkBody_rest_length (sign : Char) (ps : List (List Char)) (sl : Nat) :
    (hunkBody sign ps sl).2.2.length ≤ ps.length := by
  induction ps, sl using hunkBody.induct sign with
  | case1 sl => simp [hunkBody]
  | case2 p sl h => simp [hunkBody, h]
  | case3 p sl h =>
    simp only [hunkBody, if_neg h]
    simp
  | case4 p q rest sl h => simp [hunkBody, h]
  | case5 p q rest sl h hq r ih =>
    simp only [hunkBody, if_neg h, if_pos hq]
    calc (hunkBody sign rest _).2.2.length ≤ rest.length := ih
      _ ≤ (p :: q :: rest).length := by simp; omega
  | case6 p q rest sl h hq r ih =>
    simp only [hunkBody, if_neg h, if_neg hq]
    calc (hunkBody sign (q :: rest) _).2.2.length ≤ (q :: rest).length := ih
      _ ≤ (p :: q :: rest).length := by simp

/-- The body of one iteration of the outer loop of `apply_patch`,
parameterized by the continuation `k` used for the remaining patch lines:
a hunk header is parsed (a regex mismatch or an out-of-range start
position is a fatal error, mirroring the two `raise` statements of the
source), the untouched input lines up to the hunk start are copied, and
the hunk body is processed. -/
def hunkStep (text : List (List Char)) (sign : Char)
    (k : List (List Char) → Nat → Except String (List (List Char)))
    (h : List Char) (rest : List (List Char)) (sl : Nat) :
    Except String (List (List Char)) :=
  match parseHeader h with
  | none => .error "Bad patch -- regex mismatch"
  | some (g1, g2, g3, g4) =>
    let sr : Nat × Option (List Char) := if sign = '-' then (g3, g4) else (g1, g2)
    let l : Int := (sr.1 : Int) - 1 + (if sr.2 = some ['0'] then 1 else 0)
    if (sl : Int) > l ∨ l > (text.length : Int) then
      .error "Bad patch -- bad line num"
    else
      let ln := l.toNat
      let body := hunkBody sign rest ln
      match k body.2.2 body.2.1 with
      | .error e => .error e
      | .ok tail => .ok ((text.drop sl).take (ln - sl) ++ body.1 ++ tail)

/-- The outer loop of `apply_patch`, structurally recursive on a fuel
bound on the number of remaining patch lines (each iteration consumes at
least the header line, so `ps.length` is always enough fuel; with
exhausted fuel the remaining line list is provably empty at every actual
call). -/
def hunkLoopGo (text : List (List Char)) (sign : Char) :
    Nat → List (List Char) → Nat → Except String (List (List Char))
  | _, [], sl => .ok (text.drop sl)
  | 0, _ :: _, sl => .ok (text.drop sl)
  | fuel + 1, h :: rest, sl =>
    hunkStep text sign (hunkLoopGo text sign fuel) h rest sl

/-- The outer loop of `apply_patch` (fuel instantiated to the patch-line
count, which the fuel-irrelevance lemma below shows is always enough). -/
def hunkLoop (text : List (List Char)) (sign : Char)
    (ps : List (List Char)) (sl : Nat) : Except String (List (List Char)) :=
  hunkLoopGo text sign ps.length ps sl

theorem hunkStep_congr (text : List (List Char)) (sign : Char)
    (h : List Char) (rest : List (List Char)) (sl : Nat)
    (k k2 : List (List Char) → Nat → Except String (List (List Char)))
    (hk : ∀ ps sl2, ps.length ≤ rest.length → k ps sl2 = k2 ps sl2) :
    hunkStep text sign k h rest sl = hunkStep text sign k2 h rest sl := by
  unfold hunkStep
  cases hp : parseHeader h with
  | none => rfl
  | some g =>
    obtain ⟨g1, g2, g3, g4⟩ := g
    dsimp only
    rw [hk _ _ (hunkBody_rest_length _ _ _)]

theorem hunkLoopGo_fuel (text : List (List Char)) (sign : Char) :
    ∀ (fuel fuel2 : Nat) (ps : List (List Char)) (sl : Nat),
    ps.length ≤ fuel → ps.length ≤ fuel2 →
    hunkLoopGo text sign fuel ps sl = hunkLoopGo text sign fuel2 ps sl := by
  intro fuel
  induction fuel with
  | zero =>
    intro fuel2 ps sl h1 _
    have hps : ps = [] := by
      cases ps with
      | nil => rfl
      | cons a as => simp at h1
    subst hps
    cases fuel2 <;> rfl
  | succ fuel ih =>
    intro fuel2 ps sl h1 h2
    cases ps with
    | nil => cases fuel2 <;> rfl
    | cons h rest =>
      cases fuel2 with
      | zero => simp at h2
      | succ fuel2 =>
        rw [hunkLoopGo, hunkLoopGo]
        apply hunkStep_congr
        intro ps2 sl2 hlen
        apply ih
        · calc ps2.length ≤ rest.length := hlen
            _ ≤ fuel := by simp at h1; omega
        · calc ps2.length ≤ rest.length := hlen
            _ ≤ fuel2 := by simp at h2; omega

theorem hunkLoop_nil (text : List (List Char)) (sign : Char) (sl : Nat) :
    hunkLoop text sign [] sl = .ok (text.drop sl) := rfl

/-- One-step unfolding of the outer loop at a hunk header. -/
theorem hunkLoop_cons (text : List (List Char)) (sign : Char)
    (h : List Char) (rest : List (List Char)) (sl : Nat) :
    hunkLoop text sign (h :: rest) sl
      = match parseHeader h with
        | none => .error "Bad patch -- regex mismatch"
        | some (g1, g2, g3, g4) =>
          let sr : Nat × Option (List Char) :=
            if sign = '-' then (g3, g4) else (g1, g2)
          let l : Int := (sr.1 : Int) - 1 + (if sr.2 = some ['0'] then 1 else 0)
          if (sl : Int) > l ∨ l > (text.length : Int) then
            .error "Bad patch -- bad line num"
          else
            let ln := l.toNat
            let body := hunkBody sign rest ln
            match hunkLoop text sign body.2.2 body.2.1 with
            | .error e => .error e
            | .ok tail => .ok ((text.drop sl).take (ln - sl) ++ body.1 ++ tail) := by
  show hunkLoopGo text sign (h :: rest).length (h :: rest) sl = _
  rw [List.length_cons, hunkLoopGo]
  exact hunkStep_congr text sign h rest sl _ _
    (fun ps sl2 hlen => hunkLoopGo_fuel text sign rest.length ps.length ps sl2
      hlen (le_refl _))

/-- Translation of `apply_patch(text, patch, revert)` from patcher.py. -/
def apply_patch (text patch : List Char) (revert : Bool := false) :
    Except String (List Char) :=
  let tl := splitlines text
  let pl := skipHeaders (splitlines patch)
  let sign := if revert then '-' else '+'
  match hunkLoop tl sign pl 0 with
  | .error e => .error e
  | .ok out => .ok out.flatten

/-! ## Patch construction (`create_patch`, patcher.py lines 14-24)

`create_patch` joins the lines produced by `difflib.unified_diff`,
inserting the `\ No newline at end of file` marker after any diff line
that does not end with a newline.  `difflib` is standard-library code not
present in the repository; `unified_diff` below is modelled from the
specification (§4.1): a longest-common-subsequence line diff, runs of
equal lines as context, standard unified hunk grouping with three context
lines, and `-start,len +start,len` headers with the standard conventions
(`,len` omitted when the length is one; a zero-length range starts at the
line before the position). -/

/-- One line-level edit: an unchanged, removed or inserted line. -/
inductive DiffOp where
  | keep (l : List Char)
  | del (l : List Char)
  | ins (l : List Char)

/-- Old-side projection of an edit script. -/
def opsOld : List DiffOp → List (List Char)
  | [] => []
  | .keep l :: r => l :: opsOld r
  | .del l :: r => l :: opsOld r
  | .ins _ :: r => opsOld r

/-- New-side projection of an edit script. -/
def opsNew : List DiffOp → List (List Char)
  | [] => []
  | .keep l :: r => l :: opsNew r
  | .del _ :: r => opsNew r
  | .ins l :: r => l :: opsNew r

/-- Number of non-`keep` edits, used to pick the smaller script. -/
def editCost : List DiffOp → Nat
  | [] => 0
  | .keep _ :: r => editCost r
  | .del _ :: r => editCost r + 1
  | .ins _ :: r => editCost r + 1

/-- Modelled from the spec: the longest-common-subsequence line alignment
underlying `difflib.unified_diff` (§4.1) — equal lines become `keep`,
differing runs become `del`/`ins`. -/
def diff : List (List Char) → List (List Char) → List DiffOp
  | [], ys => ys.map .ins
  | x :: xs, [] => (x :: xs).map .del
  | x :: xs, y :: ys =>
    if x = y then .keep x :: diff xs ys
    else
      let d1 := DiffOp.del x :: diff xs (y :: ys)
      let d2 := DiffOp.ins y :: diff (x :: xs) ys
      if editCost d1 ≤ editCost d2 then d1 else d2
  termination_by xs ys => xs.length + ys.length
  decreasing_by all_goals (simp only [List.length_cons]; omega)

/-- A maximal run of equal lines, or a change block with its removed and
added lines (difflib's `equal` and `replace`/`delete`/`insert` opcodes). -/
inductive Opcode where
  | eq (ls : List (List Char))
  | ch (dels adds : List (List Char))

/-- Old-side projection of an opcode list. -/
def opcOld : List Opcode → List (List Char)
  | [] => []
  | .eq ls :: t => ls ++ opcOld t
  | .ch ds _ :: t => ds ++ opcOld t

/-- New-side projection of an opcode list. -/
def opcNew : List Opcode → List (List Char)
  | [] => []
  | .eq ls :: t => ls ++ opcNew t
  | .ch _ as2 :: t => as2 ++ opcNew t

/-- Collapses an edit script into maximal opcode runs (difflib's
`get_opcodes`): adjacent equal lines form one `eq` run and adjacent
removals/insertions one `ch` block. -/
def toOpcodes : List DiffOp → List Opcode
  | [] => []
  | .keep l :: r =>
    match toOpcodes r with
    | .eq ls :: t => .eq (l :: ls) :: t
    | t => .eq [l] :: t
  | .del l :: r =>
    match toOpcodes r with
    | .ch ds as2 :: t => .ch (l :: ds) as2 :: t
    | t => .ch [l] [] :: t
  | .ins l :: r =>
    match toOpcodes r with
    | .ch ds as2 :: t => .ch ds (l :: as2) :: t
    | t => .ch [] [l] :: t

/-- Core of difflib's `get_grouped_opcodes` (context size 3): walks the
opcode list, closing the current hunk at every interior equal run longer
than six lines (three lines of trailing and leading context remain, the
middle is skipped) and truncating a final equal run to three context
lines.  Returns the completed first hunk, the later hunks each paired
with the equal lines skipped before them, and the trailing skipped
lines. -/
def grp : List Opcode →
    List Opcode × List (List (List Char) × List Opcode) × List (List Char)
  | [] => ([], [], [])
  | .eq ls :: rest =>
    if rest.isEmpty then ([Opcode.eq (ls.take 3)], [], ls.drop 3)
    else if 6 < ls.length then
      let r := grp rest
      ([Opcode.eq (ls.take 3)],
        ((ls.drop 3).take (ls.length - 6),
          Opcode.eq (ls.drop (ls.length - 3)) :: r.1) :: r.2.1,
        r.2.2)
    else
      let r := grp rest
      (Opcode.eq ls :: r.1, r.2.1, r.2.2)
  | op :: rest =>
    let r := grp rest
    (op :: r.1, r.2.1, r.2.2)

/-- difflib's `get_grouped_opcodes` (context size 3) over collapsed
opcodes: hunks paired with the equal lines skipped before each of them,
plus the trailing skipped lines.  A leading equal run is truncated to
three context lines; an opcode list with no change yields no hunks. -/
def mkGroups : List Opcode →
    List (List (List Char) × List Opcode) × List (List Char)
  | [] => ([], [])
  | .eq ls :: rest =>
    if rest.isEmpty then ([], ls)
    else
      let k := ls.length - 3
      let r := grp (Opcode.eq (ls.drop k) :: rest)
      ((ls.take k, r.1) :: r.2.1, r.2.2)
  | op :: rest =>
    let r := grp (op :: rest)
    (([], r.1) :: r.2.1, r.2.2)

/-- Decimal digits of a natural number, most significant first. -/
def natDigits (n : Nat) : List Char :=
  if _h : n < 10 then [(Nat.digitChar n)]
  else natDigits (n / 10) ++ [Nat.digitChar (n % 10)]
  termination_by n
  decreasing_by exact Nat.div_lt_self (by omega) (by omega)

/-- difflib's `_format_range_unified`: `start+1` alone for a length-one
range, otherwise `beginning,length` where a zero-length range begins at
the line before the position. -/
def fmtRange (start len : Nat) : List Char :=
  if len = 1 then natDigits (start + 1)
  else natDigits (if len = 0 then start else start + 1) ++ ',' :: natDigits len

/-- Tagged hunk-body lines of one opcode: context lines carry `' '`,
removed lines `'-'`, added lines `'+'`. -/
def tagOf : Opcode → List (Char × List Char)
  | .eq ls => ls.map fun l => (' ', l)
  | .ch ds as2 => (ds.map fun l => ('-', l)) ++ (as2.map fun l => ('+', l))

/-- All tagged body lines of a hunk. -/
def hunkTags (h : List Opcode) : List (Char × List Char) :=
  (h.map tagOf).flatten

/-- Serialized body lines of a hunk (tag character prepended). -/
def bodyLines (h : List Opcode) : List (List Char) :=
  (hunkTags h).map fun t => t.1 :: t.2

/-- Old-side length of a hunk. -/
def oldLen (h : List Opcode) : Nat := (opcOld h).length

/-- New-side length of a hunk. -/
def newLen (h : List Opcode) : Nat := (opcNew h).length

/-- The `@@ -a,b +c,d @@` header line of a hunk whose zero-based old and
new starts are `i1` and `j1`. -/
def hunkHeaderLine (i1 ol j1 nl2 : Nat) : List Char :=
  "@@ -".toList ++ fmtRange i1 ol ++ " +".toList ++ fmtRange j1 nl2
    ++ " @@".toList ++ ['\n']

/-- Serializes grouped hunks, threading the zero-based old and new
positions to compute each hunk header. -/
def serializeGroups : Nat → Nat → List (List (List Char) × List Opcode) →
    List (List Char)
  | _, _, [] => []
  | i, j, (sk, h) :: rest =>
    let i1 := i + sk.length
    let j1 := j + sk.length
    hunkHeaderLine i1 (oldLen h) j1 (newLen h) :: bodyLines h
      ++ serializeGroups (i1 + oldLen h) (j1 + newLen h) rest

/-- Modelled from the spec: `difflib.unified_diff` (§4.1) — the diff-line
sequence for two line lists: `---`/`+++` header lines followed by hunks,
or nothing at all when there is no change. -/
def unified_diff (a b : List (List Char)) (filename : List Char) :
    List (List Char) :=
  let gs := (mkGroups (toOpcodes (diff a b))).1
  if gs.isEmpty then []
  else ("--- ".toList ++ filename ++ ['\n'])
    :: ("+++ ".toList ++ filename ++ ['\n'])
    :: serializeGroups 0 0 gs

/-- The `\ No newline at end of file` marker line (`_NO_EOL` plus the
newline that `create_patch` appends after it). -/
def noEolLine : List Char := "\\ No newline at end of file".toList ++ ['\n']

/-- The join-transform of patcher.py line 24: a diff line is kept if it
ends with a newline, otherwise a newline and the no-newline marker line
are appended. -/
def fixEOL (l : List Char) : List Char :=
  if l.getLast? = some '\n' then l else l ++ '\n' :: noEolLine

/-- Translation of `create_patch(from_text, to_text, filename)` from
patcher.py, over the spec-modelled `unified_diff`. -/
def create_patch (from_text to_text : List Char) (filename : List Char := []) :
    List Char :=
  ((unified_diff (splitlines from_text) (splitlines to_text) filename).map
    fixEOL).flatten

/-! ## Decimal digits: printing and parsing round-trip -/

theorem natDigits_lt10 (n : Nat) (h : n < 10) :
    natDigits n = [Nat.digitChar n] := by
  rw [natDigits]
  simp [h]

theorem natDigits_ge10 (n : Nat) (h : 10 ≤ n) :
    natDigits n = natDigits (n / 10) ++ [Nat.digitChar (n % 10)] := by
  rw [natDigits]
  simp [Nat.not_lt.mpr h]

theorem digitChar_isDig : ∀ d : Nat, d < 10 → isDig (Nat.digitChar d) = true := by
  decide

theorem digVal_digitChar : ∀ d : Nat, d < 10 → digVal (Nat.digitChar d) = d := by
  decide

theorem natDigits_ne_nil (n : Nat) : natDigits n ≠ [] := by
  by_cases h : n < 10
  · rw [natDigits_lt10 n h]; simp
  · rw [natDigits_ge10 n (Nat.not_lt.mp h)]; simp

theorem natDigits_all_dig (n : Nat) : ∀ c ∈ natDigits n, isDig c = true := by
  induction n using Nat.strong_induction_on with
  | _ n ih =>
    by_cases h : n < 10
    · rw [natDigits_lt10 n h]
      intro c hc
      simp at hc
      subst hc
      exact digitChar_isDig n h
    · rw [natDigits_ge10 n (Nat.not_lt.mp h)]
      intro c hc
      rcases List.mem_append.mp hc with hc | hc
      · exact ih (n / 10) (Nat.div_lt_self (by omega) (by omega)) c hc
      · simp at hc
        subst hc
        exact digitChar_isDig _ (Nat.mod_lt _ (by omega))

theorem digitsVal_concat (l : List Char) (c : Char) :
    digitsVal (l ++ [c]) = digitsVal l * 10 + digVal c := by
  simp [digitsVal, List.foldl_append]

theorem digitsVal_natDigits (n : Nat) : digitsVal (natDigits n) = n := by
  induction n using Nat.strong_induction_on with
  | _ n ih =>
    by_cases h : n < 10
    · rw [natDigits_lt10 n h]
      show digitsVal ([] ++ [Nat.digitChar n]) = n
      rw [digitsVal_concat]
      simp [digitsVal, digVal_digitChar n h]
    · rw [natDigits_ge10 n (Nat.not_lt.mp h), digitsVal_concat,
        ih (n / 10) (Nat.div_lt_self (by omega) (by omega)),
        digVal_digitChar _ (Nat.mod_lt _ (by omega))]
      omega

theorem natDigits_zero : natDigits 0 = ['0'] := by
  rw [natDigits_lt10 0 (by omega)]
  rfl

theorem natDigits_eq_zero_iff (n : Nat) : natDigits n = ['0'] ↔ n = 0 := by
  constructor
  · intro h
    have := digitsVal_natDigits n
    rw [h] at this
    simpa [digitsVal, digVal] using this.symm
  · intro h
    subst h
    exact natDigits_zero

theorem isDig_ne_nl {c : Char} (h : isDig c = true) : c ≠ '\n' := by
  intro hc
  subst hc
  exact absurd h (by decide)

theorem digitsSpan_append (ds r : List Char) (hd : ∀ c ∈ ds, isDig c = true)
    (hr : ∀ c, r.head? = some c → isDig c = false) :
    digitsSpan (ds ++ r) = (ds, r) := by
  induction ds with
  | nil =>
    cases r with
    | nil => rfl
    | cons c cs =>
      have := hr c rfl
      simp [digitsSpan, this]
  | cons d ds ih =>
    have hdd : isDig d = true := hd d (List.mem_cons_self _ _)
    have ih' := ih fun c hc => hd c (List.mem_cons_of_mem _ hc)
    simp only [List.cons_append, digitsSpan, hdd, if_pos, List.append_eq]
    rw [ih']

theorem stripPre_append (p r : List Char) : stripPre p (p ++ r) = some r := by
  induction p with
  | nil => rfl
  | cons c cs ih => simp [stripPre, ih]

/-- Start value recovered by the parser from a formatted range. -/
def rangeVal (start len : Nat) : Nat := if len = 0 then start else start + 1

/-- Raw text of the optional length group in a formatted range. -/
def rangeTxt (len : Nat) : Option (List Char) :=
  if len = 1 then none else some (natDigits len)

theorem fmtRange_one (s : Nat) : fmtRange s 1 = natDigits (s + 1) := by
  simp [fmtRange]

theorem fmtRange_ne_one (s len : Nat) (h : len ≠ 1) :
    fmtRange s len
      = natDigits (if len = 0 then s else s + 1) ++ ',' :: natDigits len := by
  simp [fmtRange, h]

theorem parseRange_fmt (s len : Nat) (t : List Char) :
    parseRange (fmtRange s len ++ ' ' :: t)
      = some (rangeVal s len, rangeTxt len, ' ' :: t) := by
  by_cases h1 : len = 1
  · subst h1
    have hspan1 : digitsSpan (fmtRange s 1 ++ ' ' :: t)
        = (natDigits (s + 1), ' ' :: t) := by
      rw [fmtRange_one]
      exact digitsSpan_append _ _ (natDigits_all_dig _)
        (by intro c hc; simp at hc; subst hc; decide)
    have hspan2 : digitsSpan (' ' :: t) = ([], ' ' :: t) := by
      simp [digitsSpan, show isDig ' ' = false by decide]
    simp only [parseRange, hspan1, List.head?_cons]
    rw [if_neg (natDigits_ne_nil _)]
    simp [hspan2, digitsVal_natDigits, rangeVal, rangeTxt]
  · have hspan1 : digitsSpan (fmtRange s len ++ ' ' :: t)
        = (natDigits (if len = 0 then s else s + 1),
            ',' :: (natDigits len ++ ' ' :: t)) := by
      rw [fmtRange_ne_one s len h1, List.append_assoc, List.cons_append]
      exact digitsSpan_append _ _ (natDigits_all_dig _)
        (by intro c hc; simp at hc; subst hc; decide)
    have hspan2 : digitsSpan (natDigits len ++ ' ' :: t)
        = (natDigits len, ' ' :: t) :=
      digitsSpan_append _ _ (natDigits_all_dig _)
        (by intro c hc; simp at hc; subst hc; decide)
    simp only [parseRange, hspan1, List.head?_cons, List.tail_cons]
    rw [if_neg (natDigits_ne_nil _)]
    simp [hspan2, digitsVal_natDigits, rangeVal, rangeTxt, h1, natDigits_ne_nil]

theorem parseHeader_fmt (i1 ol j1 n2 : Nat) :
    parseHeader (hunkHeaderLine i1 ol j1 n2)
      = some (rangeVal i1 ol, rangeTxt ol, rangeVal j1 n2, rangeTxt n2) := by
  have ha : hunkHeaderLine i1 ol j1 n2
      = "@@ -".toList ++ (fmtRange i1 ol ++ (' ' :: ('+' :: (fmtRange j1 n2
          ++ (' ' :: ('@' :: ('@' :: ['\n']))))))) := by
    show _ ++ _ ++ _ ++ _ ++ _ ++ _ = _
    rw [show (" +".toList : List Char) = ' ' :: ['+'] from by decide,
      show (" @@".toList : List Char) = ' ' :: ('@' :: ['@']) from by decide]
    simp
  have hb : stripPre " +".toList
        (' ' :: ('+' :: (fmtRange j1 n2 ++ (' ' :: ('@' :: ('@' :: ['\n']))))))
      = some (fmtRange j1 n2 ++ (' ' :: ('@' :: ('@' :: ['\n'])))) := by
    rw [show (" +".toList : List Char) = [' ', '+'] from by decide]
    simp [stripPre]
  have hc : stripPre " @@".toList (' ' :: ('@' :: ('@' :: ['\n'])))
      = some ['\n'] := by
    rw [show (" @@".toList : List Char) = [' ', '@', '@'] from by decide]
    simp [stripPre]
  rw [ha]
  simp only [parseHeader, stripPre_append, parseRange_fmt, hb, hc]
  simp

/-- The cursor value computed by `apply_patch` from a parsed range is the
zero-based start position used to build it. -/
theorem rangeVal_cursor (s len : Nat) :
    ((rangeVal s len : Int) - 1
      + (if rangeTxt len = some ['0'] then 1 else 0)) = s := by
  rcases Nat.lt_or_ge len 1 with h | h
  · have h0 : len = 0 := by omega
    subst h0
    simp [rangeVal, rangeTxt, natDigits_zero]
  · rcases Nat.eq_or_lt_of_le h with h1 | h2
    · have : len = 1 := h1.symm
      subst this
      simp [rangeVal, rangeTxt]
    · have hne : len ≠ 0 := by omega
      have hne1 : len ≠ 1 := by omega
      have : rangeTxt len = some (natDigits len) := by simp [rangeTxt, hne1]
      rw [this]
      have : natDigits len ≠ ['0'] := by
        intro hc
        exact hne ((natDigits_eq_zero_iff len).mp hc)
      simp [rangeVal, hne, this]

/-! ## Behaviour of the inner loop on serialized hunk bodies -/

/-- The patch lines a single diff line becomes after the `create_patch`
join-transform: itself if it ends with a newline, otherwise the line with
a newline appended followed by the no-newline marker line. -/
def expandLine (l : List Char) : List (List Char) :=
  if l.getLast? = some '\n' then [l] else [l ++ ['\n'], noEolLine]

theorem fixEOL_eq_flatten (l : List Char) : fixEOL l = (expandLine l).flatten := by
  by_cases h : l.getLast? = some '\n' <;> simp [fixEOL, expandLine, h, noEolLine]

theorem expandLine_ne_nil (l : List Char) : expandLine l ≠ [] := by
  by_cases h : l.getLast? = some '\n' <;> simp [expandLine, h]

theorem noEolLine_head : noEolLine.head? = some '\\' := by decide

/-- Output lines collected by the inner loop from tagged body lines. -/
def emitTags (sign : Char) : List (Char × List Char) → List (List Char)
  | [] => []
  | t :: ts => (if t.1 = sign ∨ t.1 = ' ' then [t.2] else []) ++ emitTags sign ts

/-- Input-cursor advance of the inner loop over tagged body lines. -/
def advTags (sign : Char) : List (Char × List Char) → Nat
  | [] => 0
  | t :: ts => (if t.1 = sign then 0 else 1) + advTags sign ts

/-- The serialized patch lines of a tagged body-line list. -/
def tagChunks (tags : List (Char × List Char)) : List (List Char) :=
  ((tags.map fun t => t.1 :: t.2).map expandLine).flatten

theorem tagChunks_nil : tagChunks [] = [] := rfl

theorem tagChunks_cons (t : Char × List Char) (ts : List (Char × List Char)) :
    tagChunks (t :: ts) = expandLine (t.1 :: t.2) ++ tagChunks ts := by
  simp [tagChunks]

theorem tagChunks_eq_nil_iff (ts : List (Char × List Char)) :
    tagChunks ts = [] ↔ ts = [] := by
  cases ts with
  | nil => simp [tagChunks]
  | cons t ts =>
    rw [tagChunks_cons]
    simp only [List.append_eq_nil]
    constructor
    · rintro ⟨h, -⟩
      exact absurd h (expandLine_ne_nil _)
    · intro h
      exact absurd h (by simp)

theorem tagChunks_head (t : Char × List Char) (ts : List (Char × List Char)) :
    ∃ x xs, tagChunks (t :: ts) = x :: xs ∧ x.head? = some t.1 := by
  rw [tagChunks_cons]
  by_cases h : (t.1 :: t.2).getLast? = some '\n'
  · exact ⟨t.1 :: t.2, tagChunks ts, by simp [expandLine, h], rfl⟩
  · refine ⟨t.1 :: t.2 ++ ['\n'], noEolLine :: tagChunks ts, ?_, rfl⟩
    simp [expandLine, h]

/-- Processing the serialized form of tagged body lines: the inner loop
emits exactly the lines whose tag is the active sign or a space (without
the tag character), advances the cursor once per line whose tag is not
the sign, and stops at the continuation (which is empty or starts with a
hunk header). -/
theorem hunkBody_chunks (sign : Char) (tags : List (Char × List Char))
    (rest : List (List Char)) (sl : Nat)
    (htags : ∀ t ∈ tags, t.1 = ' ' ∨ t.1 = '-' ∨ t.1 = '+')
    (hrest : rest = [] ∨ ∃ r1 rs, rest = r1 :: rs ∧ r1.head? = some '@') :
    hunkBody sign (tagChunks tags ++ rest) sl
      = (emitTags sign tags, sl + advTags sign tags, rest) := by
  induction tags generalizing sl with
  | nil =>
    rw [tagChunks_nil, List.nil_append]
    rcases hrest with rfl | ⟨r1, rs, rfl, hr1⟩
    · simp [hunkBody, emitTags, advTags]
    · cases rs with
      | nil => simp [hunkBody, hr1, emitTags, advTags]
      | cons r2 rs2 => simp [hunkBody, hr1, emitTags, advTags]
  | cons t ts ih =>
    obtain ⟨pc, l⟩ := t
    have hpc : pc = ' ' ∨ pc = '-' ∨ pc = '+' :=
      htags (pc, l) (List.mem_cons_self _ _)
    have hpcat : ¬(pc :: l).head? = some '@' := by
      simp only [List.head?_cons, Option.some.injEq]
      rcases hpc with h | h | h <;> (subst h; decide)
    have ih' := fun sl => ih sl (fun t ht => htags t (List.mem_cons_of_mem _ ht))
    rw [tagChunks_cons]
    by_cases hnl : (pc :: l).getLast? = some '\n'
    · -- the line ends with a newline: it is serialized as itself
      rw [show expandLine (pc :: l) = [pc :: l] from by simp [expandLine, hnl]]
      simp only [List.cons_append, List.nil_append]
      rcases hz : tagChunks ts ++ rest with _ | ⟨q, zs⟩
      · -- both the remaining chunks and the continuation are empty
        rcases List.append_eq_nil.mp hz with ⟨hz1, hz2⟩
        have hts : ts = [] := (tagChunks_eq_nil_iff ts).mp hz1
        subst hts
        subst hz2
        simp only [hunkBody, if_neg hpcat, lineStep, emitTags, advTags,
          List.append_nil, Prod.mk.injEq, true_and, and_true]
        by_cases hs : pc = sign <;> simp [hs]
      · -- step over the line, then continue by induction
        have hq : ¬q.head? = some '\\' := by
          cases ts with
          | nil =>
            rcases hrest with rfl | ⟨r1, rs, hr, hr1⟩
            · simp [tagChunks_nil] at hz
            · rw [tagChunks_nil, List.nil_append, hr] at hz
              cases hz
              simp [hr1]
          | cons t2 ts2 =>
            obtain ⟨x, xs, hx, hxh⟩ := tagChunks_head t2 ts2
            rw [hx, List.cons_append] at hz
            cases hz
            have h2 : t2.1 = ' ' ∨ t2.1 = '-' ∨ t2.1 = '+' :=
              htags t2 (List.mem_cons_of_mem _ (List.mem_cons_self _ _))
            rw [hxh]
            simp only [Option.some.injEq]
            rcases h2 with h | h | h <;> (rw [h]; decide)
        simp only [hunkBody, if_neg hpcat, if_neg hq]
        rw [← hz, ih']
        simp only [lineStep, emitTags, advTags, Prod.mk.injEq, true_and, and_true]
        by_cases hs : pc = sign <;> simp [hs] <;> omega
    · -- the line lacks a newline: serialized with the no-newline marker
      rw [show expandLine (pc :: l) = [pc :: (l ++ ['\n']), noEolLine] from by
        simp [expandLine, hnl]]
      simp only [List.cons_append, List.nil_append]
      simp only [hunkBody,
        if_neg (show ¬(pc :: (l ++ ['\n'])).head? = some '@' from by
          simp only [List.head?_cons, Option.some.injEq]
          rcases hpc with h | h | h <;> (subst h; decide)),
        if_pos noEolLine_head]
      rw [show (pc :: (l ++ ['\n'])).dropLast = pc :: l from by
        rw [show pc :: (l ++ ['\n']) = (pc :: l) ++ ['\n'] from rfl, List.dropLast_concat]]
      rw [ih']
      simp only [lineStep, emitTags, advTags, Prod.mk.injEq, true_and, and_true]
      by_cases hs : pc = sign <;> simp [hs] <;> omega

/-! ## Projections of the diff and of the grouped hunks -/

theorem opsOld_map_ins (ys : List (List Char)) :
    opsOld (ys.map DiffOp.ins) = [] := by
  induction ys with
  | nil => rfl
  | cons y ys ih => simp [opsOld, ih]

theorem opsNew_map_ins (ys : List (List Char)) :
    opsNew (ys.map DiffOp.ins) = ys := by
  induction ys with
  | nil => rfl
  | cons y ys ih => simp [opsNew, ih]

theorem opsOld_map_del (xs : List (List Char)) :
    opsOld (xs.map DiffOp.del) = xs := by
  induction xs with
  | nil => rfl
  | cons x xs ih => simp [opsOld, ih]

theorem opsNew_map_del (xs : List (List Char)) :
    opsNew (xs.map DiffOp.del) = [] := by
  induction xs with
  | nil => rfl
  | cons x xs ih => simp [opsNew, ih]

/-- The old-side projection of the diff is the old line list. -/
theorem opsOld_diff (xs ys : List (List Char)) : opsOld (diff xs ys) = xs := by
  induction xs, ys using diff.induct with
  | case1 ys => rw [diff]; exact opsOld_map_ins ys
  | case2 x xs => rw [diff]; exact opsOld_map_del (x :: xs)
  | case3 xs y ys ih =>
    rw [diff]
    simp only [if_pos rfl, opsOld, ih]
  | case4 x xs y ys h d1 d2 hc ih1 ih2 =>
    rw [diff]
    simp only [if_neg h, if_pos hc, opsOld, ih1]
  | case5 x xs y ys h d1 d2 hc ih1 ih2 =>
    rw [diff]
    simp only [if_neg h, if_neg hc, opsOld, ih2]

/-- The new-side projection of the diff is the new line list. -/
theorem opsNew_diff (xs ys : List (List Char)) : opsNew (diff xs ys) = ys := by
  induction xs, ys using diff.induct with
  | case1 ys => rw [diff]; exact opsNew_map_ins ys
  | case2 x xs => rw [diff]; exact opsNew_map_del (x :: xs)
  | case3 xs y ys ih =>
    rw [diff]
    simp only [if_pos rfl, opsNew, ih]
  | case4 x xs y ys h d1 d2 hc ih1 ih2 =>
    rw [diff]
    simp only [if_neg h, if_pos hc, opsNew, ih1]
  | case5 x xs y ys h d1 d2 hc ih1 ih2 =>
    rw [diff]
    simp only [if_neg h, if_neg hc, opsNew, ih2]

/-- Diffing a line list against itself yields only `keep` edits. -/
theorem diff_self (xs : List (List Char)) : diff xs xs = xs.map DiffOp.keep := by
  induction xs with
  | nil => rw [diff]; rfl
  | cons x xs ih => rw [diff]; simp [ih]

theorem opcOld_cons (op : Opcode) (t : List Opcode) :
    opcOld (op :: t) = (match op with
      | .eq ls => ls
      | .ch ds _ => ds) ++ opcOld t := by
  cases op <;> rfl

theorem opcNew_cons (op : Opcode) (t : List Opcode) :
    opcNew (op :: t) = (match op with
      | .eq ls => ls
      | .ch _ as2 => as2) ++ opcNew t := by
  cases op <;> rfl

theorem opcOld_toOpcodes (ops : List DiffOp) :
    opcOld (toOpcodes ops) = opsOld ops := by
  induction ops with
  | nil => rfl
  | cons op r ih =>
    cases op with
    | keep l =>
      rw [toOpcodes]
      cases ht : toOpcodes r with
      | nil => rw [ht] at ih; simp [opcOld, opsOld, ← ih]
      | cons o t =>
        rw [ht] at ih
        cases o with
        | eq ls => simp only [opcOld, opsOld, ← ih, List.cons_append]
        | ch ds as2 => simp only [opcOld, opsOld, ← ih, List.singleton_append]
    | del l =>
      rw [toOpcodes]
      cases ht : toOpcodes r with
      | nil => rw [ht] at ih; simp [opcOld, opsOld, ← ih]
      | cons o t =>
        rw [ht] at ih
        cases o with
        | eq ls => simp only [opcOld, opsOld, ← ih, List.singleton_append]
        | ch ds as2 => simp only [opcOld, opsOld, ← ih, List.cons_append]
    | ins l =>
      rw [toOpcodes]
      cases ht : toOpcodes r with
      | nil => rw [ht] at ih; simp [opcOld, opsOld, ← ih]
      | cons o t =>
        rw [ht] at ih
        cases o with
        | eq ls => simp only [opcOld, opsOld, ← ih, List.nil_append]
        | ch ds as2 => simp only [opcOld, opsOld, ← ih]

theorem opcNew_toOpcodes (ops : List DiffOp) :
    opcNew (toOpcodes ops) = opsNew ops := by
  induction ops with
  | nil => rfl
  | cons op r ih =>
    cases op with
    | keep l =>
      rw [toOpcodes]
      cases ht : toOpcodes r with
      | nil => rw [ht] at ih; simp [opcNew, opsNew, ← ih]
      | cons o t =>
        rw [ht] at ih
        cases o with
        | eq ls => simp only [opcNew, opsNew, ← ih, List.cons_append]
        | ch ds as2 => simp only [opcNew, opsNew, ← ih, List.singleton_append]
    | del l =>
      rw [toOpcodes]
      cases ht : toOpcodes r with
      | nil => rw [ht] at ih; simp [opcNew, opsNew, ← ih]
      | cons o t =>
        rw [ht] at ih
        cases o with
        | eq ls => simp only [opcNew, opsNew, ← ih, List.nil_append]
        | ch ds as2 => simp only [opcNew, opsNew, ← ih]
    | ins l =>
      rw [toOpcodes]
      cases ht : toOpcodes r with
      | nil => rw [ht] at ih; simp [opcNew, opsNew, ← ih]
      | cons o t =>
        rw [ht] at ih
        cases o with
        | eq ls => simp only [opcNew, opsNew, ← ih, List.singleton_append]
        | ch ds as2 => simp only [opcNew, opsNew, ← ih, List.cons_append]

/-- Old-side lines of grouped hunks, with the skipped context spliced
back in. -/
def flatOld (gs : List (List (List Char) × List Opcode)) : List (List Char) :=
  (gs.map fun g => g.1 ++ opcOld g.2).flatten

/-- New-side lines of grouped hunks, with the skipped context spliced
back in. -/
def flatNew (gs : List (List (List Char) × List Opcode)) : List (List Char) :=
  (gs.map fun g => g.1 ++ opcNew g.2).flatten

theorem flatOld_cons (g : List (List Char) × List Opcode)
    (gs : List (List (List Char) × List Opcode)) :
    flatOld (g :: gs) = g.1 ++ opcOld g.2 ++ flatOld gs := by
  simp [flatOld]

theorem flatNew_cons (g : List (List Char) × List Opcode)
    (gs : List (List (List Char) × List Opcode)) :
    flatNew (g :: gs) = g.1 ++ opcNew g.2 ++ flatNew gs := by
  simp [flatNew]

/-- Splicing the take-3/middle/last-3 decomposition of an equal run used
by the grouping. -/
theorem take_mid_drop (ls : List (List Char)) (h : 6 < ls.length) :
    ls.take 3 ++ ((ls.drop 3).take (ls.length - 6)
      ++ (ls.drop (ls.length - 3) ++ [])) = ls := by
  rw [List.append_nil]
  have h1 : ls.drop (ls.length - 3) = (ls.drop 3).drop (ls.length - 6) := by
    rw [List.drop_drop]
    congr 1
    omega
  rw [h1, List.take_append_drop, List.take_append_drop]

theorem grp_flat_old (ops : List Opcode) :
    opcOld ops
      = opcOld (grp ops).1 ++ flatOld (grp ops).2.1 ++ (grp ops).2.2 := by
  induction ops with
  | nil => rfl
  | cons op rest ih =>
    cases op with
    | eq ls =>
      by_cases hrest : rest.isEmpty
      · rw [show rest = [] from List.isEmpty_iff.mp hrest]
        rw [grp]
        simp [opcOld, flatOld, List.take_append_drop]
      · rw [grp, if_neg hrest]
        by_cases hlen : 6 < ls.length
        · have hsplit : ls = ls.take 3
              ++ ((ls.drop 3).take (ls.length - 6) ++ ls.drop (ls.length - 3)) := by
            have h1 : ls.drop (ls.length - 3)
                = (ls.drop 3).drop (ls.length - 6) := by
              rw [List.drop_drop]; congr 1; omega
            rw [h1, List.take_append_drop, List.take_append_drop]
          simp only [if_pos hlen, opcOld_cons, flatOld_cons, opcOld]
          rw [ih]
          conv_lhs => rw [hsplit]
          simp [List.append_assoc]
        · simp only [if_neg hlen, opcOld_cons]
          rw [ih]
          simp [List.append_assoc]
    | ch ds as2 =>
      rw [grp]
      · simp only [opcOld_cons]
        rw [ih]
        simp [List.append_assoc]
      · intro ls hls
        exact Opcode.noConfusion hls

theorem grp_flat_new (ops : List Opcode) :
    opcNew ops
      = opcNew (grp ops).1 ++ flatNew (grp ops).2.1 ++ (grp ops).2.2 := by
  induction ops with
  | nil => rfl
  | cons op rest ih =>
    cases op with
    | eq ls =>
      by_cases hrest : rest.isEmpty
      · rw [show rest = [] from List.isEmpty_iff.mp hrest]
        rw [grp]
        simp [opcNew, flatNew, List.take_append_drop]
      · rw [grp, if_neg hrest]
        by_cases hlen : 6 < ls.length
        · have hsplit : ls = ls.take 3
              ++ ((ls.drop 3).take (ls.length - 6) ++ ls.drop (ls.length - 3)) := by
            have h1 : ls.drop (ls.length - 3)
                = (ls.drop 3).drop (ls.length - 6) := by
              rw [List.drop_drop]; congr 1; omega
            rw [h1, List.take_append_drop, List.take_append_drop]
          simp only [if_pos hlen, opcNew_cons, flatNew_cons, opcNew]
          rw [ih]
          conv_lhs => rw [hsplit]
          simp [List.append_assoc]
        · simp only [if_neg hlen, opcNew_cons]
          rw [ih]
          simp [List.append_assoc]
    | ch ds as2 =>
      rw [grp]
      · simp only [opcNew_cons]
        rw [ih]
        simp [List.append_assoc]
      · intro ls hls
        exact Opcode.noConfusion hls

theorem mkGroups_flat_old (ops : List Opcode) :
    opcOld ops = flatOld (mkGroups ops).1 ++ (mkGroups ops).2 := by
  cases ops with
  | nil => rfl
  | cons op rest =>
    cases op with
    | eq ls =>
      by_cases hrest : rest.isEmpty
      · rw [show rest = [] from List.isEmpty_iff.mp hrest]
        rw [mkGroups]
        simp [opcOld, flatOld]
      · rw [mkGroups, if_neg hrest]
        have h' : ls.drop (ls.length - 3) ++ opcOld rest
            = opcOld (grp (Opcode.eq (ls.drop (ls.length - 3)) :: rest)).1
              ++ flatOld (grp (Opcode.eq (ls.drop (ls.length - 3)) :: rest)).2.1
              ++ (grp (Opcode.eq (ls.drop (ls.length - 3)) :: rest)).2.2 :=
          grp_flat_old (Opcode.eq (ls.drop (ls.length - 3)) :: rest)
        show ls ++ opcOld rest = _
        simp only [flatOld_cons]
        calc (ls ++ opcOld rest : List (List Char))
            = ls.take (ls.length - 3) ++ (ls.drop (ls.length - 3) ++ opcOld rest) := by
              rw [← List.append_assoc, List.take_append_drop]
          _ = _ := by
              rw [h']
              simp [List.append_assoc]
    | ch ds as2 =>
      rw [mkGroups]
      · have h := grp_flat_old (Opcode.ch ds as2 :: rest)
        simp only [flatOld_cons]
        rw [h]
        simp [List.append_assoc]
      · intro ls hls
        exact Opcode.noConfusion hls

theorem mkGroups_flat_new (ops : List Opcode) :
    opcNew ops = flatNew (mkGroups ops).1 ++ (mkGroups ops).2 := by
  cases ops with
  | nil => rfl
  | cons op rest =>
    cases op with
    | eq ls =>
      by_cases hrest : rest.isEmpty
      · rw [show rest = [] from List.isEmpty_iff.mp hrest]
        rw [mkGroups]
        simp [opcNew, flatNew]
      · rw [mkGroups, if_neg hrest]
        have h' : ls.drop (ls.length - 3) ++ opcNew rest
            = opcNew (grp (Opcode.eq (ls.drop (ls.length - 3)) :: rest)).1
              ++ flatNew (grp (Opcode.eq (ls.drop (ls.length - 3)) :: rest)).2.1
              ++ (grp (Opcode.eq (ls.drop (ls.length - 3)) :: rest)).2.2 :=
          grp_flat_new (Opcode.eq (ls.drop (ls.length - 3)) :: rest)
        show ls ++ opcNew rest = _
        simp only [flatNew_cons]
        calc (ls ++ opcNew rest : List (List Char))
            = ls.take (ls.length - 3) ++ (ls.drop (ls.length - 3) ++ opcNew rest) := by
              rw [← List.append_assoc, List.take_append_drop]
          _ = _ := by
              rw [h']
              simp [List.append_assoc]
    | ch ds as2 =>
      rw [mkGroups]
      · have h := grp_flat_new (Opcode.ch ds as2 :: rest)
        simp only [flatNew_cons]
        rw [h]
        simp [List.append_assoc]
      · intro ls hls
        exact Opcode.noConfusion hls

/-! ## Emission and cursor advance of a serialized hunk -/

/-- The active sign of `apply_patch`:
`(midx,sign) = (1,'+') if not revert else (3,'-')`. -/
def signOf (rev : Bool) : Char := if rev then '-' else '+'

theorem emitTags_append (sign : Char) (t1 t2 : List (Char × List Char)) :
    emitTags sign (t1 ++ t2) = emitTags sign t1 ++ emitTags sign t2 := by
  induction t1 with
  | nil => rfl
  | cons t ts ih => simp [emitTags, ih, List.append_assoc]

theorem advTags_append (sign : Char) (t1 t2 : List (Char × List Char)) :
    advTags sign (t1 ++ t2) = advTags sign t1 + advTags sign t2 := by
  induction t1 with
  | nil => simp [advTags]
  | cons t ts ih =>
    simp only [List.cons_append, advTags, List.append_eq, ih]
    omega

theorem emitTags_map_const (sign c : Char) (ls : List (List Char)) :
    emitTags sign (ls.map fun l => (c, l))
      = if c = sign ∨ c = ' ' then ls else [] := by
  induction ls with
  | nil => simp [emitTags]
  | cons l ls ih =>
    by_cases h : c = sign ∨ c = ' ' <;> simp [emitTags, ih, h]

theorem advTags_map_const (sign c : Char) (ls : List (List Char)) :
    advTags sign (ls.map fun l => (c, l))
      = if c = sign then 0 else ls.length := by
  induction ls with
  | nil => simp [advTags]
  | cons l ls ih =>
    by_cases h : c = sign
    · subst h
      simp [advTags, ih]
    · simp [advTags, ih, h]
      omega

theorem hunkTags_nil : hunkTags [] = [] := rfl

theorem hunkTags_cons (op : Opcode) (t : List Opcode) :
    hunkTags (op :: t) = tagOf op ++ hunkTags t := by
  simp [hunkTags]

/-- Every tag of a serialized hunk body is a context, removed or added
marker. -/
theorem hunkTags_prefixes (h : List Opcode) :
    ∀ t ∈ hunkTags h, t.1 = ' ' ∨ t.1 = '-' ∨ t.1 = '+' := by
  induction h with
  | nil => simp [hunkTags_nil]
  | cons op rest ih =>
    intro t ht
    rw [hunkTags_cons] at ht
    rcases List.mem_append.mp ht with ht | ht
    · cases op with
      | eq ls =>
        simp only [tagOf, List.mem_map] at ht
        obtain ⟨l, -, rfl⟩ := ht
        left; rfl
      | ch ds as2 =>
        simp only [tagOf, List.mem_append, List.mem_map] at ht
        rcases ht with ⟨l, -, rfl⟩ | ⟨l, -, rfl⟩
        · right; left; rfl
        · right; right; rfl
    · exact ih t ht

/-- The inner loop emits the revert-dependent target side of a hunk. -/
theorem emitTags_hunkTags (rev : Bool) (h : List Opcode) :
    emitTags (signOf rev) (hunkTags h)
      = if rev then opcOld h else opcNew h := by
  induction h with
  | nil => cases rev <;> simp [hunkTags_nil, emitTags, opcOld, opcNew]
  | cons op rest ih =>
    rw [hunkTags_cons, emitTags_append, ih]
    cases op with
    | eq ls =>
      rw [opcOld_cons, opcNew_cons]
      cases rev <;> simp [tagOf, emitTags_map_const]
    | ch ds as2 =>
      rw [opcOld_cons, opcNew_cons]
      cases rev <;>
        simp [tagOf, emitTags_append, emitTags_map_const, signOf,
          show ('-' : Char) ≠ '+' from by decide,
          show ('-' : Char) ≠ ' ' from by decide,
          show ('+' : Char) ≠ '-' from by decide,
          show ('+' : Char) ≠ ' ' from by decide]

/-- The inner loop advances the cursor by the revert-dependent source-side
length of a hunk. -/
theorem advTags_hunkTags (rev : Bool) (h : List Opcode) :
    advTags (signOf rev) (hunkTags h)
      = if rev then newLen h else oldLen h := by
  induction h with
  | nil => cases rev <;> simp [hunkTags_nil, advTags, newLen, oldLen, opcOld, opcNew]
  | cons op rest ih =>
    rw [hunkTags_cons, advTags_append, ih]
    have hol : ∀ t, oldLen (op :: t) = (match op with
        | .eq ls => ls.length
        | .ch ds _ => ds.length) + oldLen t := by
      intro t
      rw [oldLen, opcOld_cons, List.length_append, oldLen]
      cases op <;> rfl
    have hnl2 : ∀ t, newLen (op :: t) = (match op with
        | .eq ls => ls.length
        | .ch _ as2 => as2.length) + newLen t := by
      intro t
      rw [newLen, opcNew_cons, List.length_append, newLen]
      cases op <;> rfl
    cases op with
    | eq ls =>
      rw [hol, hnl2]
      cases rev <;>
        simp [tagOf, advTags_map_const, signOf,
          show (' ' : Char) ≠ '-' from by decide,
          show (' ' : Char) ≠ '+' from by decide]
    | ch ds as2 =>
      rw [hol, hnl2]
      cases rev <;>
        simp [tagOf, advTags_append, advTags_map_const, signOf,
          show ('-' : Char) ≠ '+' from by decide,
          show ('+' : Char) ≠ '-' from by decide]

/-- Hunk headers begin with an `'@'`. -/
theorem hunkHeaderLine_head (a b c d : Nat) :
    (hunkHeaderLine a b c d).head? = some '@' := by
  rw [hunkHeaderLine, show ("@@ -".toList : List Char) = ['@', '@', ' ', '-'] from by decide]
  rfl

/-- Hunk headers end with the newline appended by the serializer. -/
theorem hunkHeaderLine_getLast (a b c d : Nat) :
    (hunkHeaderLine a b c d).getLast? = some '\n' := by
  rw [hunkHeaderLine]
  rw [show "@@ -".toList ++ fmtRange a b ++ " +".toList ++ fmtRange c d
      ++ " @@".toList ++ ['\n']
    = ("@@ -".toList ++ fmtRange a b ++ " +".toList ++ fmtRange c d
      ++ " @@".toList) ++ ['\n'] from by simp [List.append_assoc]]
  rw [List.getLast?_concat]

/-! ## The outer loop reconstructs the target side of the grouped diff -/

theorem chunks_cons (l : List Char) (ls : List (List Char)) :
    ((l :: ls).map expandLine).flatten
      = expandLine l ++ (ls.map expandLine).flatten := by
  simp

theorem chunks_append (a b : List (List Char)) :
    ((a ++ b).map expandLine).flatten
      = (a.map expandLine).flatten ++ (b.map expandLine).flatten := by
  simp

theorem serializeGroups_nil (i j : Nat) : serializeGroups i j [] = [] := rfl

theorem serializeGroups_cons (i j : Nat) (sk : List (List Char))
    (h : List Opcode) (gs : List (List (List Char) × List Opcode)) :
    serializeGroups i j ((sk, h) :: gs)
      = hunkHeaderLine (i + sk.length) (oldLen h) (j + sk.length) (newLen h)
        :: bodyLines h
        ++ serializeGroups (i + sk.length + oldLen h) (j + sk.length + newLen h) gs := by
  rw [serializeGroups]

theorem bodyLines_chunks (h : List Opcode) :
    ((bodyLines h).map expandLine).flatten = tagChunks (hunkTags h) := rfl

/-- The serialized continuation after a hunk body is empty or starts with
the next hunk's header line. -/
theorem serialize_chunks_shape (i j : Nat)
    (gs : List (List (List Char) × List Opcode)) :
    ((serializeGroups i j gs).map expandLine).flatten = []
      ∨ ∃ r1 rs, ((serializeGroups i j gs).map expandLine).flatten = r1 :: rs
          ∧ r1.head? = some '@' := by
  cases gs with
  | nil => left; rfl
  | cons g gs =>
    obtain ⟨sk, h⟩ := g
    right
    rw [serializeGroups_cons, chunks_append, chunks_cons]
    rw [show expandLine (hunkHeaderLine (i + sk.length) (oldLen h)
        (j + sk.length) (newLen h))
      = [hunkHeaderLine (i + sk.length) (oldLen h) (j + sk.length) (newLen h)]
      from by simp [expandLine, hunkHeaderLine_getLast]]
    refine ⟨hunkHeaderLine (i + sk.length) (oldLen h) (j + sk.length) (newLen h),
      ((bodyLines h).map expandLine).flatten
        ++ ((serializeGroups (i + sk.length + oldLen h)
          (j + sk.length + newLen h) gs).map expandLine).flatten,
      by simp [List.append_assoc], hunkHeaderLine_head _ _ _ _⟩

/-- Core correctness of `hunkLoop` on a serialized grouped diff: starting
at the direction's cursor with the direction's source side ahead in the
input, it rebuilds the skipped context and the direction's target side of
every hunk, followed by the trailing input. -/
theorem hunkLoop_groups (rev : Bool) (textL : List (List Char))
    (gs : List (List (List Char) × List Opcode)) :
    ∀ (i j : Nat) (tr : List (List Char)),
    (if rev then j else i) ≤ textL.length →
    textL.drop (if rev then j else i)
        = (if rev then flatNew gs else flatOld gs) ++ tr →
    hunkLoop textL (signOf rev)
        (((serializeGroups i j gs).map expandLine).flatten)
        (if rev then j else i)
      = .ok ((if rev then flatOld gs else flatNew gs) ++ tr) := by
  induction gs with
  | nil =>
    intro i j tr hsl hdec
    rw [serializeGroups_nil]
    simp only [List.map_nil, List.flatten_nil]
    rw [hunkLoop_nil, hdec]
    cases rev <;> simp [flatOld, flatNew]
  | cons g gs ih =>
    obtain ⟨sk, h⟩ := g
    intro i j tr hsl hdec
    -- abbreviations for the direction-dependent quantities
    have hflatC : (if rev then flatNew ((sk, h) :: gs) else flatOld ((sk, h) :: gs))
        = sk ++ (if rev then opcNew h else opcOld h)
          ++ (if rev then flatNew gs else flatOld gs) := by
      cases rev <;> simp [flatNew_cons, flatOld_cons]
    have hCl : (if rev then opcNew h else opcOld h).length
        = (if rev then newLen h else oldLen h) := by
      cases rev <;> simp [newLen, oldLen]
    rw [hflatC] at hdec
    -- length bookkeeping
    have hlen : textL.length = (if rev then j else i) + sk.length
        + (if rev then newLen h else oldLen h)
        + ((if rev then flatNew gs else flatOld gs).length + tr.length) := by
      have hd := congrArg List.length hdec
      rw [List.length_drop] at hd
      simp only [List.length_append, hCl] at hd
      omega
    -- serialize and expand the first hunk
    rw [serializeGroups_cons, chunks_append, chunks_cons]
    rw [show expandLine (hunkHeaderLine (i + sk.length) (oldLen h)
        (j + sk.length) (newLen h))
      = [hunkHeaderLine (i + sk.length) (oldLen h) (j + sk.length) (newLen h)]
      from by simp [expandLine, hunkHeaderLine_getLast]]
    rw [show ([hunkHeaderLine (i + sk.length) (oldLen h) (j + sk.length)
          (newLen h)] ++ ((bodyLines h).map expandLine).flatten)
        ++ ((serializeGroups (i + sk.length + oldLen h)
          (j + sk.length + newLen h) gs).map expandLine).flatten
      = hunkHeaderLine (i + sk.length) (oldLen h) (j + sk.length) (newLen h)
        :: (((bodyLines h).map expandLine).flatten
          ++ ((serializeGroups (i + sk.length + oldLen h)
            (j + sk.length + newLen h) gs).map expandLine).flatten)
      from by simp [List.append_assoc]]
    rw [hunkLoop_cons, parseHeader_fmt]
    -- the selected range is the direction's start and length
    have hsr : (if signOf rev = '-'
          then (rangeVal (j + sk.length) (newLen h), rangeTxt (newLen h))
          else (rangeVal (i + sk.length) (oldLen h), rangeTxt (oldLen h)))
        = (rangeVal ((if rev then j else i) + sk.length)
            (if rev then newLen h else oldLen h),
           rangeTxt (if rev then newLen h else oldLen h)) := by
      cases rev <;> simp [signOf]
    simp only [hsr]
    have hcur : ((rangeVal ((if rev then j else i) + sk.length)
          (if rev then newLen h else oldLen h) : Int) - 1
        + (if rangeTxt (if rev then newLen h else oldLen h) = some ['0']
            then 1 else 0))
        = (((if rev then j else i) + sk.length : Nat) : Int) :=
      rangeVal_cursor _ _
    rw [hcur]
    have hb1 : (if rev then j else i) + sk.length ≤ textL.length := by omega
    have hcond : ¬((((if rev then j else i) : Nat) : Int)
          > (((if rev then j else i) + sk.length : Nat) : Int)
        ∨ (((if rev then j else i) + sk.length : Nat) : Int)
          > ((textL.length : Nat) : Int)) := by
      simp only [not_or, not_lt]
      constructor
      · exact_mod_cast Nat.le_add_right _ _
      · exact_mod_cast hb1
    rw [if_neg hcond]
    rw [show (((((if rev then j else i) + sk.length : Nat) : Int)).toNat)
      = (if rev then j else i) + sk.length from by omega]
    rw [bodyLines_chunks,
      hunkBody_chunks (signOf rev) (hunkTags h) _ _ (hunkTags_prefixes h)
        (serialize_chunks_shape _ _ gs)]
    dsimp only
    rw [emitTags_hunkTags, advTags_hunkTags]
    have hsl' : (if rev then j + sk.length + newLen h
        else i + sk.length + oldLen h) ≤ textL.length := by
      cases rev <;> (simp at hlen ⊢; omega)
    have hdec' : textL.drop (if rev then j + sk.length + newLen h
          else i + sk.length + oldLen h)
        = (if rev then flatNew gs else flatOld gs) ++ tr := by
      have hsplit : (if rev then j + sk.length + newLen h
          else i + sk.length + oldLen h)
          = (if rev then j else i)
            + (sk ++ (if rev then opcNew h else opcOld h)).length := by
        rw [List.length_append, hCl]
        cases rev <;> (simp; omega)
      rw [hsplit, ← List.drop_drop, hdec, List.append_assoc, List.drop_left]
    have ihx := ih (i + sk.length + oldLen h) (j + sk.length + newLen h) tr
      hsl' hdec'
    rw [show (if rev then j else i) + sk.length
        + (if rev then newLen h else oldLen h)
      = (if rev then j + sk.length + newLen h
        else i + sk.length + oldLen h) from by cases rev <;> simp]
    rw [ihx]
    rw [show (if rev then j else i) + sk.length - (if rev then j else i)
      = sk.length from by omega]
    rw [hdec, List.append_assoc, List.append_assoc, List.take_left]
    rw [show (if rev then flatOld ((sk, h) :: gs) else flatNew ((sk, h) :: gs))
      = sk ++ ((if rev then opcOld h else opcNew h)
        ++ (if rev then flatOld gs else flatNew gs)) from by
      cases rev <;> simp [flatNew_cons, flatOld_cons]]
    simp [List.append_assoc]

/-! ## Well-formedness of serialized diff lines -/

/-- A serialized diff line: nonempty, with no newline before its last
character (it may or may not end with one). -/
def OkDiff (l : List Char) : Prop :=
  l ≠ [] ∧ ∀ c ∈ l.dropLast, c ≠ '\n'

theorem expandLine_NLTerm (l : List Char) (h : OkDiff l) :
    ∀ x ∈ expandLine l, NLTerm x := by
  by_cases hnl : l.getLast? = some '\n'
  · intro x hx
    rw [show expandLine l = [l] from by simp [expandLine, hnl]] at hx
    simp at hx
    subst hx
    exact ⟨h.1, hnl, h.2⟩
  · intro x hx
    rw [show expandLine l = [l ++ ['\n'], noEolLine] from by
      simp [expandLine, hnl]] at hx
    rcases List.mem_cons.mp hx with rfl | hx
    · refine ⟨by simp, ?_, ?_⟩
      · rw [List.getLast?_concat]
      · rw [List.dropLast_concat]
        intro c hc
        rcases List.eq_nil_or_concat l with rfl | ⟨l', e, rfl⟩
        · simp at hc
        · have hin : ∀ c ∈ l', c ≠ '\n' := fun c hc2 => h.2 c (by
            rw [List.concat_eq_append, List.dropLast_concat]
            exact hc2)
          have hlaste : e ≠ '\n' := fun hcontra => hnl (by
            rw [hcontra, List.concat_eq_append, List.getLast?_concat])
          rw [List.concat_eq_append] at hc
          rcases List.mem_append.mp hc with hc | hc
          · exact hin c hc
          · simp at hc
            subst hc
            exact hlaste
    · rcases List.mem_cons.mp hx with rfl | hx
      · exact ⟨by decide, by decide, by decide⟩
      · simp at hx

theorem fmtRange_no_nl (s len : Nat) : ∀ c ∈ fmtRange s len, c ≠ '\n' := by
  intro c hc
  by_cases h1 : len = 1
  · subst h1
    rw [fmtRange_one] at hc
    exact isDig_ne_nl (natDigits_all_dig _ c hc)
  · rw [fmtRange_ne_one s len h1] at hc
    rcases List.mem_append.mp hc with hc | hc
    · exact isDig_ne_nl (natDigits_all_dig _ c hc)
    · rcases List.mem_cons.mp hc with rfl | hc
      · decide
      · exact isDig_ne_nl (natDigits_all_dig _ c hc)

theorem hunkHeaderLine_OkDiff (a b c d : Nat) :
    OkDiff (hunkHeaderLine a b c d) := by
  have he : hunkHeaderLine a b c d
      = ("@@ -".toList ++ fmtRange a b ++ " +".toList ++ fmtRange c d
        ++ " @@".toList) ++ ['\n'] := by
    rw [hunkHeaderLine]
  constructor
  · rw [he]; simp
  · rw [he, List.dropLast_concat]
    have h1 : ∀ c ∈ ("@@ -".toList : List Char), c ≠ '\n' := by decide
    have h2 : ∀ c ∈ (" +".toList : List Char), c ≠ '\n' := by decide
    have h3 : ∀ c ∈ (" @@".toList : List Char), c ≠ '\n' := by decide
    intro ch hch
    simp only [List.append_assoc, List.mem_append] at hch
    rcases hch with hch | hch | hch | hch | hch
    · exact h1 ch hch
    · exact fmtRange_no_nl a b ch hch
    · exact h2 ch hch
    · exact fmtRange_no_nl c d ch hch
    · exact h3 ch hch

/-- Tag lines of a hunk mention only old-side or new-side lines. -/
theorem hunkTags_mem_sides (h : List Opcode) :
    ∀ t ∈ hunkTags h, t.2 ∈ opcOld h ∨ t.2 ∈ opcNew h := by
  induction h with
  | nil => simp [hunkTags_nil]
  | cons op rest ih =>
    intro t ht
    rw [hunkTags_cons] at ht
    rcases List.mem_append.mp ht with ht | ht
    · cases op with
      | eq ls =>
        simp only [tagOf, List.mem_map] at ht
        obtain ⟨l, hl, rfl⟩ := ht
        left
        rw [opcOld_cons]
        exact List.mem_append.mpr (Or.inl hl)
      | ch ds as2 =>
        simp only [tagOf, List.mem_append, List.mem_map] at ht
        rcases ht with ⟨l, hl, rfl⟩ | ⟨l, hl, rfl⟩
        · left
          rw [opcOld_cons]
          exact List.mem_append.mpr (Or.inl hl)
        · right
          rw [opcNew_cons]
          exact List.mem_append.mpr (Or.inl hl)
    · rcases ih t ht with hs | hs
      · left
        rw [opcOld_cons]
        exact List.mem_append.mpr (Or.inr hs)
      · right
        rw [opcNew_cons]
        exact List.mem_append.mpr (Or.inr hs)

theorem mem_flatOld (gs : List (List (List Char) × List Opcode))
    (sk : List (List Char)) (h : List Opcode) (x : List Char)
    (hg : (sk, h) ∈ gs) (hx : x ∈ opcOld h) : x ∈ flatOld gs := by
  unfold flatOld
  rw [List.mem_flatten]
  exact ⟨sk ++ opcOld h, List.mem_map_of_mem _ hg, List.mem_append.mpr (Or.inr hx)⟩

theorem mem_flatNew (gs : List (List (List Char) × List Opcode))
    (sk : List (List Char)) (h : List Opcode) (x : List Char)
    (hg : (sk, h) ∈ gs) (hx : x ∈ opcNew h) : x ∈ flatNew gs := by
  unfold flatNew
  rw [List.mem_flatten]
  exact ⟨sk ++ opcNew h, List.mem_map_of_mem _ hg, List.mem_append.mpr (Or.inr hx)⟩

/-- Every serialized line of the grouped hunks is a well-formed diff
line, provided every line mentioned by the hunks is. -/
theorem serialize_OkDiff (gs : List (List (List Char) × List Opcode)) :
    ∀ (i j : Nat),
    (∀ sk h, (sk, h) ∈ gs → ∀ t ∈ hunkTags h, t.2 ≠ [] ∧ ∀ c ∈ t.2.dropLast, c ≠ '\n') →
    ∀ line ∈ serializeGroups i j gs, OkDiff line := by
  induction gs with
  | nil => intro i j _ line hline; rw [serializeGroups_nil] at hline; simp at hline
  | cons g gs ih =>
    obtain ⟨sk, h⟩ := g
    intro i j hmem line hline
    rw [serializeGroups_cons] at hline
    rcases List.mem_append.mp hline with hline | hline
    · rcases List.mem_cons.mp hline with rfl | hline
      · exact hunkHeaderLine_OkDiff _ _ _ _
      · simp only [bodyLines, List.mem_map] at hline
        obtain ⟨t, ht, rfl⟩ := hline
        have hsh := hmem sk h (List.mem_cons_self _ _) t ht
        have hpc := hunkTags_prefixes h t ht
        constructor
        · simp
        · rw [List.dropLast_cons_of_ne_nil hsh.1]
          intro c hc
          rcases List.mem_cons.mp hc with rfl | hc
          · rcases hpc with hp | hp | hp <;> (rw [hp]; decide)
          · exact hsh.2 c hc
    · exact ih (i + sk.length + oldLen h) (j + sk.length + newLen h)
        (fun sk' h' hg' => hmem sk' h' (List.mem_cons_of_mem _ hg')) line hline

/-! ## The round-trip theorems -/

theorem flatten_fixEOL (L : List (List Char)) :
    (L.map fixEOL).flatten = ((L.map expandLine).flatten).flatten := by
  induction L with
  | nil => rfl
  | cons l L ih =>
    simp only [List.map_cons, List.flatten_cons, List.flatten_append, ih,
      fixEOL_eq_flatten]

theorem chunks_NLTerm (L : List (List Char)) (h : ∀ l ∈ L, OkDiff l) :
    ∀ x ∈ (L.map expandLine).flatten, NLTerm x := by
  intro x hx
  rw [List.mem_flatten] at hx
  obtain ⟨piece, hp, hxp⟩ := hx
  rw [List.mem_map] at hp
  obtain ⟨l, hl, rfl⟩ := hp
  exact expandLine_NLTerm l (h l hl) x hxp

/-- Definitional unfolding of `apply_patch`. -/
theorem apply_patch_eq (text patch : List Char) (rev : Bool) :
    apply_patch text patch rev
      = match hunkLoop (splitlines text) (if rev then '-' else '+')
          (skipHeaders (splitlines patch)) 0 with
        | .error e => .error e
        | .ok out => .ok out.flatten := rfl

theorem apply_patch_empty (T : List Char) (rev : Bool) :
    apply_patch T [] rev = .ok T := by
  rw [apply_patch_eq]
  rw [show skipHeaders (splitlines []) = [] from rfl]
  rw [hunkLoop_nil]
  simp [join_splitlines]

theorem hasPre_false_of_head_at (r1 : List Char) (hh : r1.head? = some '@') :
    hasPre "---".toList r1 = false ∧ hasPre "+++".toList r1 = false := by
  cases r1 with
  | nil => simp at hh
  | cons c cs =>
    simp only [List.head?_cons, Option.some.injEq] at hh
    subst hh
    rw [show ("---".toList : List Char) = ['-', '-', '-'] from by decide,
      show ("+++".toList : List Char) = ['+', '+', '+'] from by decide]
    simp [hasPre]

theorem skipHeaders_stop (l : List Char) (ls : List (List Char))
    (h1 : hasPre "---".toList l = false) (h2 : hasPre "+++".toList l = false) :
    skipHeaders (l :: ls) = l :: ls := by
  rw [skipHeaders, h1, h2]
  simp

/-- Round trip of the patch codec in both directions: applying
`create_patch A B` forward to `A` yields `B`, and in revert mode to `B`
yields `A`. -/
theorem roundtrip_aux (A B : List Char) (rev : Bool) :
    apply_patch (if rev then B else A) (create_patch A B) rev
      = .ok (if rev then A else B) := by
  have ha : opcOld (toOpcodes (diff (splitlines A) (splitlines B)))
      = splitlines A := by
    rw [opcOld_toOpcodes, opsOld_diff]
  have hb : opcNew (toOpcodes (diff (splitlines A) (splitlines B)))
      = splitlines B := by
    rw [opcNew_toOpcodes, opsNew_diff]
  have hfa := mkGroups_flat_old (toOpcodes (diff (splitlines A) (splitlines B)))
  have hfb := mkGroups_flat_new (toOpcodes (diff (splitlines A) (splitlines B)))
  rw [ha] at hfa
  rw [hb] at hfb
  set gs := (mkGroups (toOpcodes (diff (splitlines A) (splitlines B)))).1 with hgs
  set tr := (mkGroups (toOpcodes (diff (splitlines A) (splitlines B)))).2 with htr
  by_cases hempty : gs.isEmpty
  · -- no hunks: the two texts are equal and the patch is empty
    have hgsnil : gs = [] := List.isEmpty_iff.mp hempty
    have hAB : A = B := by
      rw [hgsnil] at hfa hfb
      simp only [flatOld, flatNew, List.map_nil, List.flatten_nil,
        List.nil_append] at hfa hfb
      have : splitlines A = splitlines B := by rw [hfa, hfb]
      calc A = (splitlines A).flatten := (join_splitlines A).symm
        _ = (splitlines B).flatten := by rw [this]
        _ = B := join_splitlines B
    have hcp : create_patch A B = [] := by
      unfold create_patch unified_diff
      rw [← hgs, if_pos hempty]
      rfl
    rw [hcp, apply_patch_empty]
    cases rev <;> simp [hAB]
  · -- at least one hunk
    have hL : unified_diff (splitlines A) (splitlines B) []
        = ("--- ".toList ++ [] ++ ['\n']) :: ("+++ ".toList ++ [] ++ ['\n'])
          :: serializeGroups 0 0 gs := by
      unfold unified_diff
      rw [← hgs, if_neg hempty]
    -- all serialized lines are well-formed diff lines
    have hok : ∀ l ∈ unified_diff (splitlines A) (splitlines B) [], OkDiff l := by
      rw [hL]
      intro l hl
      rcases List.mem_cons.mp hl with rfl | hl
      · exact ⟨by decide, by decide⟩
      · rcases List.mem_cons.mp hl with rfl | hl
        · exact ⟨by decide, by decide⟩
        · refine serialize_OkDiff gs 0 0 ?_ l hl
          intro sk h hg t ht
          have hside := hunkTags_mem_sides h t ht
          have hmem : t.2 ∈ splitlines A ∨ t.2 ∈ splitlines B := by
            rcases hside with hs | hs
            · left
              rw [hfa]
              exact List.mem_append.mpr (Or.inl (mem_flatOld gs sk h _ hg hs))
            · right
              rw [hfb]
              exact List.mem_append.mpr (Or.inl (mem_flatNew gs sk h _ hg hs))
          rcases hmem with hm | hm
          · exact splitlines_shape A t.2 hm
          · exact splitlines_shape B t.2 hm
    -- the patch splits back into the expanded serialized lines
    have hsplit : splitlines (create_patch A B)
        = ("--- ".toList ++ [] ++ ['\n']) :: ("+++ ".toList ++ [] ++ ['\n'])
          :: ((serializeGroups 0 0 gs).map expandLine).flatten := by
      unfold create_patch
      rw [flatten_fixEOL,
        splitlines_flatten_of_NLTerm _ (chunks_NLTerm _ hok), hL,
        chunks_cons, chunks_cons]
      rw [show expandLine ("--- ".toList ++ [] ++ ['\n'])
          = [("--- ".toList ++ [] ++ ['\n'])] from by
        rw [expandLine, if_pos (by decide)]]
      rw [show expandLine ("+++ ".toList ++ [] ++ ['\n'])
          = [("+++ ".toList ++ [] ++ ['\n'])] from by
        rw [expandLine, if_pos (by decide)]]
      simp
    -- header skipping leaves exactly the serialized hunks
    have hskip : skipHeaders (splitlines (create_patch A B))
        = ((serializeGroups 0 0 gs).map expandLine).flatten := by
      rw [hsplit]
      rw [show skipHeaders ((("--- ".toList ++ [] ++ ['\n']))
          :: ("+++ ".toList ++ [] ++ ['\n'])
          :: ((serializeGroups 0 0 gs).map expandLine).flatten)
        = skipHeaders (("+++ ".toList ++ [] ++ ['\n'])
          :: ((serializeGroups 0 0 gs).map expandLine).flatten) from by
        rw [skipHeaders]
        rw [if_pos (by decide)]]
      rw [show skipHeaders ((("+++ ".toList ++ [] ++ ['\n']))
          :: ((serializeGroups 0 0 gs).map expandLine).flatten)
        = skipHeaders (((serializeGroups 0 0 gs).map expandLine).flatten) from by
        rw [skipHeaders]
        rw [if_pos (by decide)]]
      rcases serialize_chunks_shape 0 0 gs with hc | ⟨r1, rs, hc, hr1⟩
      · rw [hc]
        rfl
      · rw [hc]
        obtain ⟨hp1, hp2⟩ := hasPre_false_of_head_at r1 hr1
        exact skipHeaders_stop r1 rs hp1 hp2
    -- run the outer loop over the serialized hunks
    cases rev with
    | false =>
      have hloop : hunkLoop (splitlines A) (signOf false)
          (((serializeGroups 0 0 gs).map expandLine).flatten) 0
          = .ok (flatNew gs ++ tr) :=
        hunkLoop_groups false (splitlines A) gs 0 0 tr
          (by simp) (by simpa using hfa)
      rw [show signOf false = '+' from rfl] at hloop
      show apply_patch A (create_patch A B) false = .ok B
      rw [apply_patch_eq, hskip]
      rw [show (if false then '-' else '+') = '+' from rfl]
      rw [hloop]
      have hout : flatNew gs ++ tr = splitlines B := hfb.symm
      show Except.ok (flatNew gs ++ tr).flatten = Except.ok B
      rw [hout, join_splitlines]
    | true =>
      have hloop : hunkLoop (splitlines B) (signOf true)
          (((serializeGroups 0 0 gs).map expandLine).flatten) 0
          = .ok (flatOld gs ++ tr) :=
        hunkLoop_groups true (splitlines B) gs 0 0 tr
          (by simp) (by simpa using hfb)
      rw [show signOf true = '-' from rfl] at hloop
      show apply_patch B (create_patch A B) true = .ok A
      rw [apply_patch_eq, hskip]
      rw [show (if true then '-' else '+') = '-' from rfl]
      rw [hloop]
      have hout : flatOld gs ++ tr = splitlines A := hfa.symm
      show Except.ok (flatOld gs ++ tr).flatten = Except.ok A
      rw [hout, join_splitlines]

/-! ## File-system model (workspace/project.py, metadata/base.py)

The functions of project.py act on the file system through `os` and
`shutil`.  They are embedded over an explicit state: an association list
of regular files (path to contents; the first binding wins on lookup) and
a list of directory paths.  Paths are character lists, and
`os.path.join(a, b)` for the relative paths these functions construct is
`a ++ "/" ++ b`.  The `os.walk` loops enumerate the regular files below a
directory; the embedding yields them in association-list order.
Directory creation records the requested path itself (ancestor paths are
not materialised; no existence check in this development consults an
ancestor that was only created implicitly). -/

structure FS where
  files : List (List Char × List Char)
  dirs : List (List Char)
deriving DecidableEq

/-- `os.path.join(a, b)` for a relative `b`. -/
def pathJoin (a b : List Char) : List Char := a ++ '/' :: b

/-- `os.path.join(os.curdir, d)`. -/
def curJoin (d : List Char) : List Char := pathJoin ".".toList d

/-- Contents of the regular file at `p`, if any. -/
def lookupFile (fs : FS) (p : List Char) : Option (List Char) :=
  match fs.files.find? (fun e => e.1 == p) with
  | some e => some e.2
  | none => none

/-- `os.path.exists(p)`: a regular file or a directory is present. -/
def pexists (fs : FS) (p : List Char) : Bool :=
  (lookupFile fs p).isSome || fs.dirs.contains p

/-- `os.path.isdir(p)`. -/
def isdir (fs : FS) (p : List Char) : Bool := fs.dirs.contains p

/-- `p` lies at or below the directory `d`. -/
def underDir (d p : List Char) : Bool := p == d || hasPre (d ++ ['/']) p

/-- `shutil.rmtree(d)`: every file and directory at or below `d` is
removed. -/
def rmtree (fs : FS) (d : List Char) : FS :=
  { files := fs.files.filter (fun e => !underDir d e.1),
    dirs := fs.dirs.filter (fun p => !underDir d p) }

/-- `os.makedirs(d, exist_ok = True)`: the requested directory path is
recorded if absent. -/
def makedirs (fs : FS) (d : List Char) : FS :=
  if fs.dirs.contains d then fs else { fs with dirs := d :: fs.dirs }

/-- Writing contents `c` to the regular file at `p` (an `open` for
writing followed by `write`, or the read-rewrite-truncate sequence of
`apply_patches`): the binding for `p` is replaced or added. -/
def writeFile (fs : FS) (p c : List Char) : FS :=
  { fs with files := (p, c) :: fs.files.filter (fun e => e.1 != p) }

/-- The regular files strictly below `d`, as enumerated by the `os.walk`
loops of project.py (full paths `os.path.join(subdir, file)`,
in association-list order). -/
def walkFiles (fs : FS) (d : List Char) : List (List Char) :=
  (fs.files.filter (fun e => hasPre (d ++ ['/']) e.1)).map (fun e => e.1)

/-- `shutil.copytree(src, dst, dirs_exist_ok = True)`: `dst` is created,
every directory below `src` is recreated below `dst`, and every file
below `src` is copied to the corresponding path below `dst` (existing
files are overwritten). -/
def copytree (fs : FS) (src dst : List Char) : FS :=
  let moved := fun (p : List Char) => pathJoin dst (p.drop (src.length + 1))
  let fs1 :=
    ((fs.dirs.filter (fun p => hasPre (src ++ ['/']) p)).map moved).foldl
      makedirs (makedirs fs dst)
  (fs.files.filter (fun e => hasPre (src ++ ['/']) e.1)).foldl
    (fun acc e => writeFile acc (moved e.1) e.2) fs1

/-- `os.path.dirname(p)`: the path with its last `/`-separated component
removed. -/
def dirname (p : List Char) : List Char :=
  ((p.reverse.dropWhile (fun c => c != '/')).drop 1).reverse

/-- The working-tree path targeted by a patch file (project.py line 48):
the patch-tree path with the patch-tree prefix and the 6-character
`.patch` suffix stripped, joined to the working tree. -/
def patchTarget (working_dir patch_dir patch_path : List Char) : List Char :=
  pathJoin working_dir ((patch_path.drop (patch_dir.length + 1)).take
    (patch_path.length - (patch_dir.length + 1) - 6))

/-- Translation of `apply_patches(working_dir, patch_dir)` from
project.py lines 40-60: every patch file found below the patch tree is
applied (`revert = False`) to the working-tree file at `patchTarget`,
which is rewritten in place with the result.  A missing working-tree
file is the `FileNotFoundError` of the source `open`, and a failed
application propagates the `apply_patch` exception, in both cases before
any write to the target file. -/
def apply_patches (working_dir patch_dir : List Char) (fs : FS) :
    Except String (FS × Bool) :=
  match (walkFiles fs patch_dir).foldlM
    (fun acc patch_path =>
      match lookupFile acc patch_path,
            lookupFile acc (patchTarget working_dir patch_dir patch_path) with
      | some patchText, some workText =>
        match apply_patch workText patchText false with
        | .error e => Except.error e
        | .ok newText =>
          Except.ok (writeFile acc (patchTarget working_dir patch_dir patch_path)
                newText)
      | _, _ => Except.error "FileNotFoundError") fs with
  | .error e => .error e
  | .ok fs2 => .ok (fs2, true)

/-- Translation of `setup_working(clean_dir, working_dir, patch_dir,
out_dir)` from project.py lines 62-89: an existing working tree is
deleted, the working directory is recreated (`os.makedirs` without
`exist_ok` raises if the path still exists, e.g. as a regular file), the
clean tree is copied into it (`shutil.copytree` raises if the clean tree
is missing or not a directory), an existing out tree is overlaid, and
patches are applied if a patch tree exists. -/
def setup_working (clean_dir working_dir patch_dir out_dir : List Char)
    (fs : FS) : Except String (FS × Bool) :=
  let cd := curJoin clean_dir
  let wd := curJoin working_dir
  let pd := curJoin patch_dir
  let od := curJoin out_dir
  let fs1 := if pexists fs wd && isdir fs wd then rmtree fs wd else fs
  if pexists fs1 wd then .error "FileExistsError"
  else
    let fs2 := makedirs fs1 wd
    if !pexists fs2 cd then .error "FileNotFoundError"
    else if !isdir fs2 cd then .error "NotADirectoryError"
    else
      let fs3 := copytree fs2 cd wd
      let fs4 := if pexists fs3 od && isdir fs3 od then copytree fs3 od wd
        else fs3
      if pexists fs4 pd && isdir fs4 pd then apply_patches wd pd fs4
      else .ok (fs4, true)

/-- The call `create_patch(clean, work, filename = ..., time = time)` at
project.py lines 116-118: `create_patch` (patcher.py line 14) accepts no
`time` parameter, so the call raises `TypeError` before any patch text is
produced. -/
def create_patch_kwarg_time : Except String (List Char) :=
  .error "TypeError: create_patch got an unexpected keyword argument time"

/-- The deletions at the start of `output_working` (project.py lines
98-102): an existing out tree and an existing patch tree are removed. -/
def outputPrune (patch_dir out_dir : List Char) (fs : FS) : FS :=
  let fs1 := if pexists fs out_dir && isdir fs out_dir then rmtree fs out_dir
    else fs
  if pexists fs1 patch_dir && isdir fs1 patch_dir then rmtree fs1 patch_dir
  else fs1

/-- Translation of `output_working(clean_dir, working_dir, patch_dir,
out_dir)` from project.py lines 91-133: the out and patch trees are
deleted, then for every file below the working tree, a file whose
clean-tree counterpart exists reaches the
`create_patch(..., time = time)` call (which raises `TypeError`, see
`create_patch_kwarg_time`; the subsequent non-empty guard and patch-file
write are unreachable), while a file without a counterpart is copied
verbatim into the out tree. -/
def output_working (clean_dir working_dir patch_dir out_dir : List Char)
    (fs : FS) : Except String (FS × Bool) :=
  let fs2 := outputPrune patch_dir out_dir fs
  match (walkFiles fs2 working_dir).foldlM
    (fun acc work_path =>
      let rel := work_path.drop (working_dir.length + 1)
      if pexists acc (pathJoin clean_dir rel) then
        match create_patch_kwarg_time with
        | .error e => Except.error e
        | .ok patch_text =>
          if patch_text.isEmpty then Except.ok acc
          else
            let patch_path := pathJoin patch_dir (rel ++ ".patch".toList)
            Except.ok (writeFile (makedirs acc (dirname patch_path)) patch_path
                  patch_text)
      else
        let out_path := pathJoin out_dir rel
        Except.ok (writeFile (makedirs acc (dirname out_path)) out_path
              ((lookupFile acc work_path).getD []))) fs2 with
  | .error e => .error e
  | .ok fs3 => .ok (fs3, true)

/-- A project file declaration (metadata/file.py): only the effect of
its `setup(root_dir)` method matters here, modelled as a state
transformer returning the new state and the success flag. -/
structure ProjectFile where
  setupF : List Char → FS → FS × Bool

/-- The loop of `ProjectMetadata.setup` (base.py lines 29-34): each
declared file's `setup` runs in order, and the files that report failure
are appended to `failed`. -/
def setupGo (root : List Char) :
    List ProjectFile → FS → List ProjectFile → FS × List ProjectFile
  | [], fs, failed => (fs, failed)
  | f :: rest, fs, failed =>
    let r := f.setupF root fs
    setupGo root rest r.1 (if r.2 then failed else failed ++ [f])

/-- Metadata information associated with the project (base.py). -/
structure ProjectMetadata where
  files : List ProjectFile

/-- Translation of `ProjectMetadata.setup(root_dir)` (base.py lines
21-35): run every declared file's `setup`, then `return not failed`. -/
def ProjectMetadata.setup (m : ProjectMetadata) (root : List Char)
    (fs : FS) : FS × Bool :=
  let r := setupGo root m.files fs []
  (r.1, r.2.isEmpty)

/-- Translation of `setup_clean(metadata, clean_dir, invalidate_cache)`
from project.py lines 24-38. -/
def setup_clean (metadata : ProjectMetadata) (clean_dir : List Char)
    (invalidate_cache : Bool) (fs : FS) : FS × Bool :=
  let cd := curJoin clean_dir
  let fs1 := if invalidate_cache && (pexists fs cd && isdir fs cd)
    then rmtree fs cd else fs
  if pexists fs1 cd && isdir fs1 cd then (fs1, true)
  else metadata.setup cd fs1

/-- The state after running every declared file's `setup` in order;
stated from the claim words ("invokes setup on every declared project
file even after an earlier file fails, does not roll back"), for
comparison with `ProjectMetadata.setup`. -/
def runAllFiles (root : List Char) (files : List ProjectFile) (fs : FS) :
    FS :=
  files.foldl (fun s f => (f.setupF root s).1) fs

/-- The success flags of the files' `setup` calls in order, each run in
the state left by its predecessors; stated from the claim words, for
comparison with `ProjectMetadata.setup`. -/
def setupFlags (root : List Char) : List ProjectFile → FS → List Bool
  | [], _ => []
  | f :: rest, fs =>
    (f.setupF root fs).2 :: setupFlags root rest (f.setupF root fs).1


/-! ### File-system lemmas -/

theorem hasPre_iff (p s : List Char) :
    hasPre p s = true ↔ ∃ t, s = p ++ t := by
  induction p generalizing s with
  | nil => simp [hasPre]
  | cons a p ih =>
    cases s with
    | nil => simp [hasPre]
    | cons b s =>
      rw [hasPre]
      simp only [Bool.and_eq_true, decide_eq_true_eq, List.cons_append,
        List.cons.injEq, ih]
      constructor
      · rintro ⟨rfl, t, rfl⟩
        exact ⟨t, rfl, rfl⟩
      · rintro ⟨t, rfl, rfl⟩
        exact ⟨rfl, t, rfl⟩

theorem hasPre_append_self (p t : List Char) : hasPre p (p ++ t) = true :=
  (hasPre_iff p (p ++ t)).mpr ⟨t, rfl⟩

theorem find?_filter_of_imp {α : Type} (l : List α) (f g : α → Bool)
    (h : ∀ e, f e = true → g e = true) :
    (l.filter g).find? f = l.find? f := by
  induction l with
  | nil => rfl
  | cons a l ih =>
    by_cases hg : g a = true
    · rw [List.filter_cons_of_pos hg]
      by_cases hf : f a = true
      · rw [List.find?_cons_of_pos _ hf, List.find?_cons_of_pos _ hf]
      · rw [List.find?_cons_of_neg _ (by simpa using hf),
          List.find?_cons_of_neg _ (by simpa using hf), ih]
    · have hf : f a = false := by
        cases hfa : f a
        · rfl
        · exact absurd (h a hfa) hg
      rw [List.filter_cons_of_neg (by simpa using hg),
        List.find?_cons_of_neg _ (by simp [hf]), ih]

theorem lookupFile_writeFile_self (fs : FS) (p c : List Char) :
    lookupFile (writeFile fs p c) p = some c := by
  unfold lookupFile writeFile
  rw [List.find?_cons_of_pos _ (by simp)]

theorem lookupFile_writeFile_other (fs : FS) (p c q : List Char)
    (h : q ≠ p) :
    lookupFile (writeFile fs p c) q = lookupFile fs q := by
  unfold lookupFile writeFile
  dsimp only
  rw [List.find?_cons_of_neg _ (by simp [Ne.symm h]),
    find?_filter_of_imp]
  intro e he
  simp only [beq_iff_eq] at he
  simp [he, h]

theorem files_makedirs (fs : FS) (d : List Char) :
    (makedirs fs d).files = fs.files := by
  unfold makedirs
  split <;> rfl

theorem lookupFile_makedirs (fs : FS) (d q : List Char) :
    lookupFile (makedirs fs d) q = lookupFile fs q := by
  unfold makedirs
  split <;> rfl

theorem files_foldl_makedirs (L : List (List Char)) (fs : FS) :
    (L.foldl makedirs fs).files = fs.files := by
  induction L generalizing fs with
  | nil => rfl
  | cons d L ih =>
    rw [List.foldl_cons, ih]
    unfold makedirs
    split <;> rfl

theorem lookupFile_files_eq (fs gs : FS) (h : fs.files = gs.files)
    (q : List Char) : lookupFile fs q = lookupFile gs q := by
  unfold lookupFile
  rw [h]

theorem lookupFile_foldl_write_of_ne {α : Type}
    (f g : α → List Char) (L : List α) (fs : FS) (q : List Char)
    (h : ∀ e ∈ L, f e ≠ q) :
    lookupFile (L.foldl (fun a e => writeFile a (f e) (g e)) fs) q
      = lookupFile fs q := by
  induction L generalizing fs with
  | nil => rfl
  | cons e L ih =>
    rw [List.foldl_cons, ih _ (fun x hx => h x (List.mem_cons_of_mem _ hx)),
      lookupFile_writeFile_other _ _ _ _
        (fun hq => h e (List.mem_cons_self _ _) hq.symm)]

theorem lookupFile_foldl_write_of_mem {α : Type}
    (f g : α → List Char) (L : List α) (fs : FS) (a : α)
    (ha : a ∈ L) (hnod : (L.map f).Nodup) :
    lookupFile (L.foldl (fun a e => writeFile a (f e) (g e)) fs) (f a)
      = some (g a) := by
  induction L generalizing fs with
  | nil => cases ha
  | cons b L ih =>
    rw [List.foldl_cons]
    rcases List.mem_cons.mp ha with rfl | ha2
    · have hnot : ∀ e ∈ L, f e ≠ f a := by
        intro e he heq
        exact (List.nodup_cons.mp hnod).1 (heq ▸ List.mem_map_of_mem f he)
      rw [lookupFile_foldl_write_of_ne f g L _ _ hnot,
        lookupFile_writeFile_self]
    · exact ih _ ha2 (List.nodup_cons.mp hnod).2

theorem lookupFile_copytree_out (fs : FS) (src dst q : List Char)
    (hq : hasPre (dst ++ ['/']) q = false) :
    lookupFile (copytree fs src dst) q = lookupFile fs q := by
  unfold copytree
  dsimp only
  rw [lookupFile_foldl_write_of_ne
      (fun e : List Char × List Char => pathJoin dst (e.1.drop (src.length + 1)))
      (fun e => e.2) _ _ _ ?hne,
    lookupFile_files_eq _ fs (by rw [files_foldl_makedirs, files_makedirs])]
  case hne =>
    intro e _ heq
    have heq2 : (dst ++ ['/']) ++ e.1.drop (src.length + 1) = q := by
      rw [← heq]
      simp [pathJoin]
    rw [← heq2, hasPre_append_self] at hq
    cases hq

theorem lookupFile_copytree_under (fs : FS) (src dst q v : List Char)
    (hnod : (fs.files.map (fun e => e.1)).Nodup)
    (hq : hasPre (src ++ ['/']) q = true)
    (hv : lookupFile fs q = some v) :
    lookupFile (copytree fs src dst)
      (pathJoin dst (q.drop (src.length + 1))) = some v := by
  unfold lookupFile at hv
  cases hfind : fs.files.find? (fun e => e.1 == q) with
  | none => rw [hfind] at hv; cases hv
  | some e =>
    rw [hfind] at hv
    have he2 : e.2 = v := by
      injection hv
    have hkey : e.1 = q := by
      have := List.find?_some hfind
      simpa using this
    have hmem : e ∈ fs.files := List.mem_of_find?_eq_some hfind
    have hmem2 : e ∈ fs.files.filter (fun e => hasPre (src ++ ['/']) e.1) := by
      rw [List.mem_filter]
      exact ⟨hmem, by rw [hkey]; exact hq⟩
    have hkeys : ((fs.files.filter (fun e => hasPre (src ++ ['/']) e.1)).map
        (fun e => e.1)).Nodup :=
      hnod.sublist ((List.filter_sublist _).map _)
    have hnodF : ((fs.files.filter (fun e => hasPre (src ++ ['/']) e.1)).map
        (fun e => pathJoin dst (e.1.drop (src.length + 1)))).Nodup := by
      rw [show (fun e : List Char × List Char =>
            pathJoin dst (e.1.drop (src.length + 1)))
          = (fun k : List Char => pathJoin dst (k.drop (src.length + 1)))
            ∘ (fun e => e.1) from rfl, ← List.map_map]
      refine List.Nodup.map_on ?_ hkeys
      intro x hx y hy hxy
      have hxp : hasPre (src ++ ['/']) x = true := by
        obtain ⟨ex, hex, hex1⟩ := List.mem_map.mp hx
        rw [← hex1]
        exact (List.mem_filter.mp hex).2
      have hyp : hasPre (src ++ ['/']) y = true := by
        obtain ⟨ey, hey, hey1⟩ := List.mem_map.mp hy
        rw [← hey1]
        exact (List.mem_filter.mp hey).2
      obtain ⟨tx, rfl⟩ := (hasPre_iff _ _).mp hxp
      obtain ⟨ty, rfl⟩ := (hasPre_iff _ _).mp hyp
      have hlen : (src ++ ['/']).length = src.length + 1 := by simp
      rw [show ((src ++ ['/']) ++ tx).drop (src.length + 1) = tx from by
          rw [← hlen, List.drop_left],
        show ((src ++ ['/']) ++ ty).drop (src.length + 1) = ty from by
          rw [← hlen, List.drop_left]] at hxy
      have : tx = ty := by
        have := List.append_cancel_left (hxy : pathJoin dst tx = pathJoin dst ty)
        injection this
      rw [this]
    unfold copytree
    dsimp only
    rw [← hkey, ← he2]
    exact lookupFile_foldl_write_of_mem _ _ _ _ e hmem2 hnodF

theorem underDir_self (d : List Char) : underDir d d = true := by
  unfold underDir
  simp

theorem pexists_rmtree_self (fs : FS) (d : List Char) :
    pexists (rmtree fs d) d = false := by
  unfold pexists rmtree lookupFile
  dsimp only
  have h1 : (fs.files.filter (fun e => !underDir d e.1)).find?
      (fun e => e.1 == d) = none := by
    rw [List.find?_eq_none]
    intro e he hbeq
    have h2 := (List.mem_filter.mp he).2
    have h3 : e.1 = d := by simpa using hbeq
    rw [h3, underDir_self] at h2
    cases h2
  rw [h1]
  have h2 : (fs.dirs.filter (fun p => !underDir d p)).contains d = false := by
    by_contra hcon
    rw [Bool.not_eq_false] at hcon
    have hcon2 : (fs.dirs.filter (fun p => !underDir d p)).elem d = true := hcon
    have hd := List.mem_of_elem_eq_true hcon2
    have h3 := (List.mem_filter.mp hd).2
    rw [underDir_self] at h3
    cases h3
  rw [h2]
  rfl

/-! ## Codec claim theorems -/

/-- C1.  Round-trip identity of the patch codec: for every pair of text
bodies `A` and `B`, `apply_patch(A, create_patch(A, B)) == B`, including
when one body's last line lacks a trailing newline and the other's has
one — terminator presence or absence is reproduced exactly (the theorem
quantifies over all character lists, so all terminator configurations are
covered). -/
theorem claim_C1_roundtrip (A B : List Char) :
    apply_patch A (create_patch A B) false = .ok B := by
  have h := roundtrip_aux A B false
  simpa using h

/-- C2.  Reverse inverse of the patch codec: for every pair of text
bodies `A` and `B`, `apply_patch(B, create_patch(A, B), revert=True) == A`
— applying the same patch document with the revert flag reconstructs the
pre-patch text from the post-patch text. -/
theorem claim_C2_reverse (A B : List Char) :
    apply_patch B (create_patch A B) true = .ok A := by
  have h := roundtrip_aux A B true
  simpa using h

theorem toOpcodes_map_keep (xs : List (List Char)) :
    toOpcodes (xs.map DiffOp.keep)
      = if xs = [] then [] else [Opcode.eq xs] := by
  induction xs with
  | nil => rfl
  | cons x xs ih =>
    rw [List.map_cons, toOpcodes, ih]
    cases xs with
    | nil => rfl
    | cons y ys => simp

/-- C4.  No-op emptiness: `create_patch(A, A)` is the empty document for
every text body `A` (so the caller's non-empty guard persists no patch
file for an unchanged file). -/
theorem claim_C4_noop_empty (A : List Char) : create_patch A A = [] := by
  unfold create_patch unified_diff
  rw [diff_self, toOpcodes_map_keep]
  by_cases h : splitlines A = []
  · rw [if_pos h]
    rfl
  · rw [if_neg h]
    rw [show mkGroups [Opcode.eq (splitlines A)] = ([], splitlines A) from by
      rw [mkGroups]
      simp]
    rfl

/-- C9.  Empty-document identity: applying an empty patch document to any
text body, with either value of the revert flag, returns the input
unchanged. -/
theorem claim_C9_empty_identity (T : List Char) (rev : Bool) :
    apply_patch T [] rev = .ok T := by
  rw [apply_patch_eq]
  rw [show skipHeaders (splitlines []) = [] from rfl]
  rw [hunkLoop_nil]
  simp [join_splitlines]

deriving instance DecidableEq for Except

/-- C3 counterexample: a hunk header whose declared old-start (3) exceeds
the input's line count (2) by exactly one is accepted without error — the
input is returned unchanged, so the claim that any old-start exceeding
the line count raises a fatal error is false. -/
theorem claim_C3_counterexample :
    apply_patch "a\nb\n".toList "@@ -3 +3 @@\n".toList false
      = .ok "a\nb\n".toList := by
  decide

/-- C3 (amended).  Malformed-patch rejection: (1) a hunk-position line
that does not match the `@@ -a,b +c,d @@` regex raises the fatal
regex-mismatch error; (2) a parsed hunk whose computed zero-based start
is before the cursor left by the previous hunk, or strictly beyond the
input's line count, raises the fatal line-number error (the declared
old-start may exceed the line count by exactly one for a nonzero-length
range, denoting the end-of-input position); (3) in `apply_patches` the
result is built in a fresh buffer first: a target file's contents are
replaced only when `apply_patch` succeeds, and a failed application
propagates the error without writing. -/
theorem claim_C3_rejection :
    (∀ (tl : List (List Char)) (sign : Char) (l : List Char)
        (rest : List (List Char)) (sl : Nat),
      parseHeader l = none →
        hunkLoop tl sign (l :: rest) sl = .error "Bad patch -- regex mismatch")
    ∧ (∀ (tl : List (List Char)) (sign : Char) (l : List Char)
        (rest : List (List Char)) (sl : Nat)
        (g1 : Nat) (g2 : Option (List Char)) (g3 : Nat) (g4 : Option (List Char)),
      parseHeader l = some (g1, g2, g3, g4) →
      (let sr : Nat × Option (List Char) :=
        if sign = '-' then (g3, g4) else (g1, g2)
       let lc : Int := (sr.1 : Int) - 1 + (if sr.2 = some ['0'] then 1 else 0)
       (sl : Int) > lc ∨ lc > (tl.length : Int)) →
        hunkLoop tl sign (l :: rest) sl = .error "Bad patch -- bad line num")
    ∧ (∀ (wd pd pp patchText workText : List Char) (e : String) (fs : FS),
      walkFiles fs pd = [pp] →
      lookupFile fs pp = some patchText →
      lookupFile fs (patchTarget wd pd pp) = some workText →
      apply_patch workText patchText false = .error e →
      apply_patches wd pd fs = .error e) := by
  refine ⟨?_, ?_, ?_⟩
  · intro tl sign l rest sl hp
    rw [hunkLoop_cons, hp]
  · intro tl sign l rest sl g1 g2 g3 g4 hp hc
    rw [hunkLoop_cons, hp]
    dsimp only
    simp only at hc
    rw [if_pos hc]
  · intro wd pd pp patchText workText e fs hwalk hp1 hp2 happ
    unfold apply_patches
    rw [hwalk, List.foldlM_cons, hp1, hp2]
    dsimp only
    rw [happ]
    rfl

/-- C3 witness. -/
theorem claim_C3_rejection_witness :
    hunkLoop [] '+' ["garbage\n".toList] 0 = .error "Bad patch -- regex mismatch"
    ∧ hunkLoop [] '+' ["@@ -2 +2 @@\n".toList] 0
      = .error "Bad patch -- bad line num"
    ∧ apply_patches "./src".toList "./patches".toList
        ⟨[("./patches/a.patch".toList, "garbage\n".toList),
          ("./src/a".toList, "x\n".toList)],
          ["./patches".toList, "./src".toList]⟩
      = .error "Bad patch -- regex mismatch" := by
  refine ⟨?_, ?_, ?_⟩
  · exact claim_C3_rejection.1 [] '+' "garbage\n".toList [] 0 (by decide)
  · exact claim_C3_rejection.2.1 [] '+' "@@ -2 +2 @@\n".toList [] 0 2 none 2 none
      (by decide) (by decide)
  · exact claim_C3_rejection.2.2 "./src".toList "./patches".toList
      "./patches/a.patch".toList "garbage\n".toList "x\n".toList
      "Bad patch -- regex mismatch"
      ⟨[("./patches/a.patch".toList, "garbage\n".toList),
        ("./src/a".toList, "x\n".toList)],
        ["./patches".toList, "./src".toList]⟩
      (by decide) (by decide) (by decide) (by decide)

/-- C10 counterexample: a context line whose last character is stripped by
a following no-newline marker line is not emitted "without its prefix
character" only — its final character is removed as well, and the marker
line itself is consumed without advancing the cursor. -/
theorem claim_C10_counterexample :
    (hunkBody '+' [" a\n".toList, "\\ No newline at end of file\n".toList] 0).1
      ≠ [(" a\n".toList).tail]
    ∧ hunkBody '+' [" a\n".toList, "\\ No newline at end of file\n".toList] 0
      = (["a".toList], 1, []) := by
  decide

/-- C10 (amended).  The inner loop is total on hunk-body lines (it never
raises): for a body line whose first character `c` is not `'@'` and that
is not followed by a backslash marker line, if `c` is the active sign or
a space the line is emitted without its prefix character, and otherwise
the line produces no output and advances the input cursor by one — the
same behaviour as the opposite direction's marker. -/
theorem claim_C10_body_lines :
    (∀ (sign c : Char) (cs : List Char) (rest : List (List Char)) (sl : Nat),
      c ≠ '@' →
      (rest = [] ∨ ∃ q rs, rest = q :: rs ∧ q.head? ≠ some '\\') →
      hunkBody sign ((c :: cs) :: rest) sl
        = ((if c = sign ∨ c = ' ' then [cs] else [])
            ++ (hunkBody sign rest (if c = sign then sl else sl + 1)).1,
           (hunkBody sign rest (if c = sign then sl else sl + 1)).2))
    ∧ (∀ (sign c : Char) (cs : List Char) (rest : List (List Char)) (sl : Nat),
      c ≠ '@' → c ≠ sign → c ≠ ' ' →
      ('-' : Char) ≠ sign → -- the opposite marker for comparison
      (rest = [] ∨ ∃ q rs, rest = q :: rs ∧ q.head? ≠ some '\\') →
      hunkBody sign ((c :: cs) :: rest) sl
        = hunkBody sign (('-' :: cs) :: rest) sl) := by
  have hstep : ∀ (sign c : Char) (cs : List Char) (rest : List (List Char)) (sl : Nat),
      c ≠ '@' →
      (rest = [] ∨ ∃ q rs, rest = q :: rs ∧ q.head? ≠ some '\\') →
      hunkBody sign ((c :: cs) :: rest) sl
        = ((if c = sign ∨ c = ' ' then [cs] else [])
            ++ (hunkBody sign rest (if c = sign then sl else sl + 1)).1,
           (hunkBody sign rest (if c = sign then sl else sl + 1)).2) := by
    intro sign c cs rest sl hc hrest
    have hat : ¬(c :: cs).head? = some '@' := by
      simp only [List.head?_cons, Option.some.injEq]
      exact hc
    rcases hrest with rfl | ⟨q, rs, rfl, hq⟩
    · simp only [hunkBody, if_neg hat, lineStep]
      simp
    · simp only [hunkBody, if_neg hat, if_neg hq, lineStep]
  constructor
  · exact hstep
  · intro sign c cs rest sl hc hs hsp hopp hrest
    rw [hstep sign c cs rest sl hc hrest,
      hstep sign '-' cs rest sl (by decide) hrest]
    simp [hs, hsp, hopp]

/-- C10 witness. -/
theorem claim_C10_body_lines_witness :
    hunkBody '+' ["xq\n".toList] 0
      = (([] : List (List Char)) ++ (hunkBody '+' [] 1).1, (hunkBody '+' [] 1).2)
    ∧ hunkBody '+' ["xq\n".toList] 0 = hunkBody '+' ["-q\n".toList] 0 := by
  constructor
  · exact (claim_C10_body_lines.1 '+' 'x' "q\n".toList [] 0 (by decide)
      (Or.inl rfl))
  · exact (claim_C10_body_lines.2 '+' 'x' "q\n".toList [] 0 (by decide)
      (by decide) (by decide) (by decide) (Or.inl rfl))


/-! ## Project pipeline claim theorems -/

theorem setupGo_fst (root : List Char) (files : List ProjectFile) :
    ∀ (fs : FS) (failed : List ProjectFile),
    (setupGo root files fs failed).1 = runAllFiles root files fs := by
  induction files with
  | nil => intro fs failed; rfl
  | cons f rest ih =>
    intro fs failed
    rw [setupGo]
    rw [ih]
    rfl

theorem setupGo_snd (root : List Char) (files : List ProjectFile) :
    ∀ (fs : FS) (failed : List ProjectFile),
    (setupGo root files fs failed).2.isEmpty
      = (failed.isEmpty && (setupFlags root files fs).all id) := by
  induction files with
  | nil => intro fs failed; simp [setupGo, setupFlags]
  | cons f rest ih =>
    intro fs failed
    rw [setupGo]
    rw [ih]
    cases hr : (f.setupF root fs).2 with
    | true => rw [setupFlags]; simp [hr]
    | false => rw [setupFlags]; simp [hr]

/-- C8.  Source-fetch aggregation: `ProjectMetadata.setup` runs every
declared file's `setup` in order — the final state is the fold of all the
files' `setup` effects, so no file is skipped after an earlier failure
and nothing is rolled back — and it returns `True` exactly when every
file's `setup` returned `True`. -/
theorem claim_C8_aggregation (m : ProjectMetadata) (root : List Char)
    (fs : FS) :
    m.setup root fs
      = (runAllFiles root m.files fs, (setupFlags root m.files fs).all id) := by
  unfold ProjectMetadata.setup
  dsimp only
  refine Prod.ext ?_ ?_
  · exact setupGo_fst root m.files fs []
  · rw [setupGo_snd root m.files fs []]
    simp

/-- C7.  Cache respect of `setup_clean`: when `invalidate_cache` is false
and the clean directory exists, the call returns success with the state
unchanged, for every metadata (so no source fetch runs); when
`invalidate_cache` is true and the clean directory exists, the clean tree
is deleted first and the metadata setup runs on the pruned state. -/
theorem claim_C7_cache :
    (∀ (metadata : ProjectMetadata) (clean_dir : List Char) (fs : FS),
      isdir fs (curJoin clean_dir) = true →
      setup_clean metadata clean_dir false fs = (fs, true))
    ∧ (∀ (metadata : ProjectMetadata) (clean_dir : List Char) (fs : FS),
      isdir fs (curJoin clean_dir) = true →
      setup_clean metadata clean_dir true fs
        = metadata.setup (curJoin clean_dir)
            (rmtree fs (curJoin clean_dir))) := by
  constructor
  · intro metadata clean_dir fs h
    have hex : pexists fs (curJoin clean_dir) = true := by
      unfold pexists
      unfold isdir at h
      rw [h]
      simp
    unfold setup_clean
    simp [hex, h]
  · intro metadata clean_dir fs h
    have hex : pexists fs (curJoin clean_dir) = true := by
      unfold pexists
      unfold isdir at h
      rw [h]
      simp
    unfold setup_clean
    simp [hex, h, pexists_rmtree_self]

/-- C7 witness. -/
theorem claim_C7_cache_witness :
    setup_clean ⟨[]⟩ "clean".toList false
        ⟨[], ["./clean".toList]⟩
      = (⟨[], ["./clean".toList]⟩, true)
    ∧ setup_clean ⟨[]⟩ "clean".toList true
        ⟨[], ["./clean".toList]⟩
      = ProjectMetadata.setup ⟨[]⟩ (curJoin "clean".toList)
          (rmtree ⟨[], ["./clean".toList]⟩ (curJoin "clean".toList)) := by
  constructor
  · exact claim_C7_cache.1 ⟨[]⟩ "clean".toList ⟨[], ["./clean".toList]⟩
      (by decide)
  · exact claim_C7_cache.2 ⟨[]⟩ "clean".toList ⟨[], ["./clean".toList]⟩
      (by decide)

theorem isdir_makedirs_mono (fs : FS) (d d2 : List Char)
    (h : isdir fs d2 = true) : isdir (makedirs fs d) d2 = true := by
  unfold makedirs isdir at *
  split
  · exact h
  · dsimp only
    have h1 := List.mem_of_elem_eq_true (h : fs.dirs.elem d2 = true)
    have h2 : d2 ∈ d :: fs.dirs := List.mem_cons_of_mem _ h1
    exact (List.elem_eq_true_of_mem h2 : (d :: fs.dirs).elem d2 = true)

theorem pexists_of_isdir (fs : FS) (d : List Char)
    (h : isdir fs d = true) : pexists fs d = true := by
  unfold pexists
  unfold isdir at h
  rw [h]
  simp

/-- C5.  Forward reconciliation rebuilds the working tree from scratch:
(1) with an existing working directory, `setup_working` gives the same
result as on the state with that directory and everything below it
deleted (the old working tree is destroyed, never incrementally
patched); (2) with no prior working-tree entry and an existing clean
tree, the pipeline is: create the working directory, copy the clean tree
into it, overlay the out tree if one exists, then apply patches if a
patch tree exists; (3) `copytree` copies every source-tree file to the
corresponding path below the destination; (4) for a patch tree holding
one patch file, `apply_patches` overwrites exactly the working-tree file
at `patchTarget` (patch-tree prefix and `.patch` suffix stripped) with
the result of the forward (`revert = False`) application to its current
content. -/
theorem claim_C5_setup_working :
    (∀ (c w p o : List Char) (fs : FS),
      isdir fs (curJoin w) = true →
      setup_working c w p o fs
        = setup_working c w p o (rmtree fs (curJoin w)))
    ∧ (∀ (c w p o : List Char) (fs : FS),
      pexists fs (curJoin w) = false →
      isdir fs (curJoin c) = true →
      setup_working c w p o fs
        = (let wd := curJoin w
           let fs3 := copytree (makedirs fs wd) (curJoin c) wd
           let fs4 := if pexists fs3 (curJoin o) && isdir fs3 (curJoin o)
             then copytree fs3 (curJoin o) wd else fs3
           if pexists fs4 (curJoin p) && isdir fs4 (curJoin p)
             then apply_patches wd (curJoin p) fs4
             else .ok (fs4, true)))
    ∧ (∀ (fs : FS) (src dst q v : List Char),
      (fs.files.map (fun e => e.1)).Nodup →
      hasPre (src ++ ['/']) q = true →
      lookupFile fs q = some v →
      lookupFile (copytree fs src dst)
        (pathJoin dst (q.drop (src.length + 1))) = some v)
    ∧ (∀ (wd pd pp patchText workText newText : List Char) (fs : FS),
      walkFiles fs pd = [pp] →
      lookupFile fs pp = some patchText →
      lookupFile fs (patchTarget wd pd pp) = some workText →
      apply_patch workText patchText false = .ok newText →
      apply_patches wd pd fs
        = .ok (writeFile fs (patchTarget wd pd pp) newText, true)) := by
  refine ⟨?_, ?_, ?_, ?_⟩
  · intro c w p o fs h
    have hex : pexists fs (curJoin w) = true := pexists_of_isdir fs _ h
    unfold setup_working
    simp [hex, h, pexists_rmtree_self]
  · intro c w p o fs h1 h2
    have hd2 : isdir (makedirs fs (curJoin w)) (curJoin c) = true :=
      isdir_makedirs_mono fs _ _ h2
    have hp2 : pexists (makedirs fs (curJoin w)) (curJoin c) = true :=
      pexists_of_isdir _ _ hd2
    unfold setup_working
    simp [h1, hd2, hp2]
  · intro fs src dst q v hnod hq hv
    exact lookupFile_copytree_under fs src dst q v hnod hq hv
  · intro wd pd pp patchText workText newText fs hwalk hp1 hp2 happ
    unfold apply_patches
    rw [hwalk, List.foldlM_cons, hp1, hp2]
    dsimp only
    rw [happ]
    rfl

/-- C5 witness. -/
theorem claim_C5_setup_working_witness :
    setup_working "clean".toList "src".toList "patches".toList "out".toList
        ⟨[("./src/old".toList, "z".toList)],
          ["./src".toList, "./clean".toList]⟩
      = setup_working "clean".toList "src".toList "patches".toList
          "out".toList
          (rmtree ⟨[("./src/old".toList, "z".toList)],
            ["./src".toList, "./clean".toList]⟩ (curJoin "src".toList))
    ∧ setup_working "clean".toList "src".toList "patches".toList
        "out".toList ⟨[("./clean/a".toList, "x".toList)], ["./clean".toList]⟩
      = (let wd := curJoin "src".toList
         let fs3 := copytree
           (makedirs ⟨[("./clean/a".toList, "x".toList)], ["./clean".toList]⟩
             wd)
           (curJoin "clean".toList) wd
         let fs4 := if pexists fs3 (curJoin "out".toList)
             && isdir fs3 (curJoin "out".toList)
           then copytree fs3 (curJoin "out".toList) wd else fs3
         if pexists fs4 (curJoin "patches".toList)
             && isdir fs4 (curJoin "patches".toList)
           then apply_patches wd (curJoin "patches".toList) fs4
           else .ok (fs4, true))
    ∧ lookupFile
        (copytree ⟨[("./clean/a".toList, "x".toList)], ["./clean".toList]⟩
          "./clean".toList "./src".toList)
        (pathJoin "./src".toList
          ("./clean/a".toList.drop ("./clean".toList.length + 1)))
      = some "x".toList
    ∧ apply_patches "./src".toList "./patches".toList
        ⟨[("./patches/a.patch".toList, "@@ -1 +1 @@\n-x\n+y\n".toList),
          ("./src/a".toList, "x\n".toList)],
          ["./patches".toList, "./src".toList]⟩
      = .ok (writeFile
          ⟨[("./patches/a.patch".toList, "@@ -1 +1 @@\n-x\n+y\n".toList),
            ("./src/a".toList, "x\n".toList)],
            ["./patches".toList, "./src".toList]⟩
          (patchTarget "./src".toList "./patches".toList
            "./patches/a.patch".toList)
          "y\n".toList, true) := by
  refine ⟨?_, ?_, ?_, ?_⟩
  · exact claim_C5_setup_working.1 "clean".toList "src".toList
      "patches".toList "out".toList
      ⟨[("./src/old".toList, "z".toList)],
        ["./src".toList, "./clean".toList]⟩ (by decide)
  · exact claim_C5_setup_working.2.1 "clean".toList "src".toList
      "patches".toList "out".toList
      ⟨[("./clean/a".toList, "x".toList)], ["./clean".toList]⟩
      (by decide) (by decide)
  · exact claim_C5_setup_working.2.2.1
      ⟨[("./clean/a".toList, "x".toList)], ["./clean".toList]⟩
      "./clean".toList "./src".toList "./clean/a".toList "x".toList
      (by decide) (by decide) (by decide)
  · exact claim_C5_setup_working.2.2.2 "./src".toList "./patches".toList
      "./patches/a.patch".toList "@@ -1 +1 @@\n-x\n+y\n".toList
      "x\n".toList "y\n".toList
      ⟨[("./patches/a.patch".toList, "@@ -1 +1 @@\n-x\n+y\n".toList),
        ("./src/a".toList, "x\n".toList)],
        ["./patches".toList, "./src".toList]⟩
      (by decide) (by decide) (by decide) (by decide)

/-- C6 (divergence).  Reverse reconciliation does not regenerate the
patch tree: the `create_patch(..., filename = ..., time = time)` call of
`output_working` raises `TypeError` (`create_patch` has no `time`
parameter), so (1) whenever the first working-tree file walked has a
clean-tree counterpart, `output_working` fails with that `TypeError` and
writes no patch file; (2) the new-file branch alone works: a single
walked file without a clean counterpart is copied verbatim into the out
tree. -/
theorem claim_C6_typeerror :
    (∀ (c w p o f : List Char) (rest : List (List Char)) (fs : FS),
      walkFiles (outputPrune p o fs) w = f :: rest →
      pexists (outputPrune p o fs)
        (pathJoin c (f.drop (w.length + 1))) = true →
      output_working c w p o fs
        = .error
            "TypeError: create_patch got an unexpected keyword argument time")
    ∧ (∀ (c w p o f : List Char) (fs : FS),
      walkFiles (outputPrune p o fs) w = [f] →
      pexists (outputPrune p o fs)
        (pathJoin c (f.drop (w.length + 1))) = false →
      output_working c w p o fs
        = .ok (writeFile
            (makedirs (outputPrune p o fs)
              (dirname (pathJoin o (f.drop (w.length + 1)))))
            (pathJoin o (f.drop (w.length + 1)))
            ((lookupFile (outputPrune p o fs) f).getD []), true)) := by
  constructor
  · intro c w p o f rest fs hwalk hex
    unfold output_working create_patch_kwarg_time
    dsimp only
    rw [hwalk, List.foldlM_cons]
    rw [hex]
    rfl
  · intro c w p o f fs hwalk hex
    unfold output_working
    dsimp only
    rw [hwalk, List.foldlM_cons]
    rw [hex]
    rfl

/-- C6 witness. -/
theorem claim_C6_typeerror_witness :
    output_working "clean".toList "src".toList "patches".toList
        "out".toList
        ⟨[("src/a".toList, "x\n".toList), ("clean/a".toList, "x\n".toList)],
          ["src".toList, "clean".toList]⟩
      = .error
          "TypeError: create_patch got an unexpected keyword argument time"
    ∧ output_working "clean".toList "src".toList "patches".toList
        "out".toList
        ⟨[("src/b".toList, "w\n".toList)], ["src".toList]⟩
      = .ok (writeFile
          (makedirs
            (outputPrune "patches".toList "out".toList
              ⟨[("src/b".toList, "w\n".toList)], ["src".toList]⟩)
            (dirname (pathJoin "out".toList
              ("src/b".toList.drop ("src".toList.length + 1)))))
          (pathJoin "out".toList
            ("src/b".toList.drop ("src".toList.length + 1)))
          ((lookupFile
            (outputPrune "patches".toList "out".toList
              ⟨[("src/b".toList, "w\n".toList)], ["src".toList]⟩)
            "src/b".toList).getD []), true) := by
  constructor
  · exact claim_C6_typeerror.1 "clean".toList "src".toList "patches".toList
      "out".toList "src/a".toList []
      ⟨[("src/a".toList, "x\n".toList), ("clean/a".toList, "x\n".toList)],
        ["src".toList, "clean".toList]⟩
      (by decide) (by decide)
  · exact claim_C6_typeerror.2 "clean".toList "src".toList "patches".toList
      "out".toList "src/b".toList
      ⟨[("src/b".toList, "w\n".toList)], ["src".toList]⟩
      (by decide) (by decide)

end Jammies
